import Mathlib

/-!
Shallow embedding of the TSP solver (Go sources `pkg/graph.go`, `pkg/solve.go`)
and verification of its specification claims.

Modelling conventions:
* Go `int` node identifiers become `Int`; `float64` edge weights become `ℚ`
  (addition and comparison of the weights are exact in the program's uses,
  so rational arithmetic models the floating computations; the `1e-9`
  tolerance is the literal rational `1 / 10^9`).
* A Go `map[int]T` becomes an association list `List (Int × T)`.  Go map
  *iteration order* is unspecified and varies between runs; the association
  list order plays exactly that role, so two lists with the same entries in
  different orders model two runs observing the same map.
* The worker's `math/rand` source becomes a stream `Nat → Nat`: the k-th
  `rng.Intn n` call returns `s k % n`.  Identical seeds give identical
  streams.
* Cancellation (`ctx.Done`) is polled at the top of every 2-opt sweep; a
  fuel parameter counts the sweeps allowed before the signal fires, and the
  returned flag records whether the loop exited by convergence (`true`)
  rather than cancellation (`false`).
-/

namespace TSPGo

/-- Association-list lookup, modelling Go map indexing `m[k]` with its
presence flag (`none` = key absent). -/
def alistGet (k : Int) : List (Int × α) → Option α
  | [] => none
  | (k', v) :: rest => if k = k' then some v else alistGet k rest

/-- Association-list update, modelling Go map assignment `m[k] = v`. -/
def alistSet (k : Int) (v : α) : List (Int × α) → List (Int × α)
  | [] => [(k, v)]
  | (k', v') :: rest => if k = k' then (k, v) :: rest else (k', v') :: alistSet k v rest

/-- One node's adjacency: the Go inner map `map[int]float64`. -/
abbrev Adj := List (Int × ℚ)

/-- The Go outer map `map[int]map[int]float64`. -/
abbrev EdgeMap := List (Int × Adj)

/-- `graph.go`: `type Graph struct { edges map[int]map[int]float64; nodes []int }`. -/
structure Graph where
  edges : EdgeMap
  nodes : List Int
  deriving Repr, DecidableEq

/-- `graph.go`: `NewGraph` creates an empty graph. -/
def NewGraph : Graph := ⟨[], []⟩

/-- One `if g.edges[k] == nil { g.edges[k] = make(...); g.nodes = append(g.nodes, k) }`
block of `AddEdge`: create the empty inner map and register the node when the
key is absent. -/
def registerNode (g : Graph) (k : Int) : Graph :=
  if (alistGet k g.edges).isNone
  then ⟨alistSet k [] g.edges, g.nodes ++ [k]⟩ else g

/-- One `g.edges[a][b] = weight` assignment of `AddEdge` (reading `g.edges[a]`
as the empty map if absent, which never happens after registration). -/
def setWeight (g : Graph) (a b : Int) (w : ℚ) : Graph :=
  ⟨alistSet a (alistSet b w ((alistGet a g.edges).getD [])) g.edges, g.nodes⟩

/-- `graph.go`: `AddEdge(from, to, weight)`.  Edges are keyed from the larger
node to the smaller node and stored in both directions; a node is appended to
`nodes` exactly when its (empty) inner map is first created.  (`from` and
`to` are Lean keywords, hence the parameter names `fr` and `tn`.) -/
def AddEdge (g : Graph) (fr tn : Int) (w : ℚ) : Graph :=
  let f := max fr tn
  let t := min fr tn
  setWeight (setWeight (registerNode (registerNode g f) t) f t w) t f w

/-- A graph built from `NewGraph` by a sequence of `AddEdge` calls. -/
def buildGraph (es : List (Int × Int × ℚ)) : Graph :=
  es.foldl (fun g e => AddEdge g e.1 e.2.1 e.2.2) NewGraph

/-- `graph.go`: `NodeCount`. -/
def NodeCount (g : Graph) : Nat := g.nodes.length

/-- The neighbor map of `u`, as read by `graph.edges[u]` (absent key gives
the empty map). -/
def adjOf (adj : EdgeMap) (u : Int) : Adj := (alistGet u adj).getD []

/-- Double map lookup `graph.edges[u][v]` with its presence flag. -/
def edgeWeightA (adj : EdgeMap) (u v : Int) : Option ℚ := alistGet v (adjOf adj u)

/-- `edgeWeightA` on a `Graph`. -/
def edgeWeight (g : Graph) (u v : Int) : Option ℚ := edgeWeightA g.edges u v

/-- Go's comma-less double map read `graph.edges[u][v]`: the weight, or the
zero value `0.0` when the edge is absent. -/
def weight0 (adj : EdgeMap) (u v : Int) : ℚ := (edgeWeightA adj u v).getD 0

/-- Top-level keys of the edge map. -/
def keysOf (adj : EdgeMap) : List Int := adj.map Prod.fst

/-! ### Construction heuristic: `randomizedNearestNeighbor` (`solve.go` 88-155) -/

/-- The random stream: call `k` of `rng.Intn n` returns `s k % n`. -/
abbrev RandS := Nat → Nat

/-- Index of the entry of largest weight, `maxDistIdx` in the Go source.
The Go loop starts at `i = 1` with `maxDistIdx = 0`; iterating from `i = 0`
is identical because the self-comparison at `i = 0` never fires. -/
def worstIdx (l : List (Int × ℚ)) : Nat :=
  (List.range l.length).foldl (fun m i => if (l.getD i (0, 0)).2 > (l.getD m (0, 0)).2 then i else m) 0

/-- The body of the top-K selection loop of `randomizedNearestNeighbor` for
one scanned neighbor `nw`: skip visited nodes, append while fewer than K = 3
candidates are held, otherwise replace the current worst on improvement. -/
def topKStep (visited : List Int) (topK : List (Int × ℚ)) (nw : Int × ℚ) : List (Int × ℚ) :=
  if visited.contains nw.1 then topK
  else if topK.length < 3 then topK ++ [nw]
  else
    let maxDistIdx := worstIdx topK
    if nw.2 < (topK.getD maxDistIdx (0, 0)).2 then topK.set maxDistIdx nw else topK

/-- The top-K (K = 3) selection of `randomizedNearestNeighbor`: scan the
neighbor map of the current node in iteration order. -/
def selectTopK (visited : List Int) (neighbors : Adj) : List (Int × ℚ) :=
  neighbors.foldl (topKStep visited) []

/-- The `for len(path) < numNodes` loop of `randomizedNearestNeighbor`,
followed by the loop-closing check.  `fuel` is `numNodes - len(path)` (the
loop appends one node per iteration); `ci` counts the `rng.Intn` calls made
so far. -/
def rnnLoop (adj : EdgeMap) (s : RandS) :
    Nat → Nat → Int → List Int → List Int → ℚ → Option (List Int × ℚ)
  | 0, _, _, _, path, totalCost =>
    -- Close the loop: `graph.edges[last][first]`, failing if absent.
    match alistGet (path.headD 0) (adjOf adj (path.getLastD 0)) with
    | some w => some (path, totalCost + w)
    | none => none
  | fuel + 1, ci, current, visited, path, totalCost =>
    let topK := selectTopK visited (adjOf adj current)
    if topK.length = 0 then none  -- dead end
    else
      let choice := topK.getD (s ci % topK.length) (0, 0)
      rnnLoop adj s fuel (ci + 1) choice.1 (visited ++ [choice.1])
        (path ++ [choice.1]) (totalCost + choice.2)

/-- `solve.go`: `randomizedNearestNeighbor(startNode, numNodes, graph, rng)`.
Returns `none` for the Go `ok = false` failure signal. -/
def randomizedNearestNeighbor (startNode : Int) (numNodes : Nat) (adj : EdgeMap)
    (s : RandS) : Option (List Int × ℚ) :=
  rnnLoop adj s (numNodes - 1) 0 startNode [startNode] [startNode] 0

/-! ### Local search: `twoOpt` (`solve.go` 158-208) -/

/-- The improvement threshold `-1e-9` guards against floating-point noise. -/
def eps : ℚ := 1 / 1000000000

/-- `solve.go`: `reverse(path, i, j)` reverses the segment of `path` between
indices `i` and `j` inclusive. -/
def reverse (path : List Int) (i j : Nat) : List Int :=
  path.take i ++ ((path.drop i).take (j + 1 - i)).reverse ++ path.drop (j + 1)

/-- The `(i, j)` pairs visited by the nested sweep loops, in loop order:
`i` over `range size`, `j` from `i + 2` to `size - 1`. -/
def sweepPairs (size : Nat) : List (Nat × Nat) :=
  (List.range size).flatMap fun i =>
    ((List.range size).filter (fun j => decide (i + 2 ≤ j))).map fun j => (i, j)

/-- Mutable state of one 2-opt sweep: the tour, its running cost, and the
`improved` flag. -/
structure SweepSt where
  path : List Int
  cost : ℚ
  improved : Bool
  deriving Repr, DecidableEq

/-- The body of the inner sweep loop for one position pair `(i, j)`: skip the
structural no-op pair `(0, size-1)`; otherwise read the two current edges
(absent edges read as `0.0`), check both replacement edges exist, and apply
the move when `delta < -1e-9`.  The Go locals are inlined here:
`u1 = path[i]`, `v1 = path[(i+1)%size]`, `u2 = path[j]`, `v2 = path[(j+1)%size]`,
`w1 = edges[u1][v1]`, `w2 = edges[u2][v2]` (zero-default reads), and
`delta = (wNew1 + wNew2) - (w1 + w2)`. -/
def twoOptStep (adj : EdgeMap) (size : Nat) (st : SweepSt) (ij : Nat × Nat) : SweepSt :=
  if ij.1 = 0 ∧ ij.2 = size - 1 then st
  else
    match edgeWeightA adj (st.path.getD ij.1 0) (st.path.getD ij.2 0),
          edgeWeightA adj (st.path.getD ((ij.1 + 1) % size) 0)
            (st.path.getD ((ij.2 + 1) % size) 0) with
    | some wNew1, some wNew2 =>
      if (wNew1 + wNew2) -
          (weight0 adj (st.path.getD ij.1 0) (st.path.getD ((ij.1 + 1) % size) 0) +
           weight0 adj (st.path.getD ij.2 0) (st.path.getD ((ij.2 + 1) % size) 0)) < -eps then
        ⟨reverse st.path (ij.1 + 1) ij.2,
          st.cost +
            ((wNew1 + wNew2) -
             (weight0 adj (st.path.getD ij.1 0) (st.path.getD ((ij.1 + 1) % size) 0) +
              weight0 adj (st.path.getD ij.2 0) (st.path.getD ((ij.2 + 1) % size) 0))),
          true⟩
      else st
    | _, _ => st

/-- One full sweep over all position pairs, starting with `improved = false`. -/
def twoOptSweep (adj : EdgeMap) (size : Nat) (path : List Int) (cost : ℚ) : SweepSt :=
  (sweepPairs size).foldl (twoOptStep adj size) ⟨path, cost, false⟩

/-- The `for improved` loop of `twoOpt`.  `fuel` is the number of sweeps the
cancellation signal allows; the returned flag is `true` when the loop exited
by convergence and `false` when cancellation fired at a sweep boundary. -/
def twoOptLoop (adj : EdgeMap) (size : Nat) : Nat → List Int → ℚ → List Int × ℚ × Bool
  | 0, path, cost => (path, cost, false)
  | fuel + 1, path, cost =>
    let st := twoOptSweep adj size path cost
    if st.improved then twoOptLoop adj size fuel st.path st.cost
    else (st.path, st.cost, true)

/-- `solve.go`: `twoOpt(path, currentCost, graph, ctx)`; `size := len(path)`. -/
def twoOpt (adj : EdgeMap) (fuel : Nat) (path : List Int) (cost : ℚ) :
    List Int × ℚ × Bool :=
  twoOptLoop adj path.length fuel path cost

/-! ### The per-attempt pipeline and the orchestrator `SolveTSP` (`solve.go` 18-84) -/

/-- One worker attempt on a given start node: construction followed by local
search (the body of the worker's `default:` branch after the start draw). -/
def attemptOn (adj : EdgeMap) (numNodes : Nat) (startNode : Int) (s : RandS)
    (fuel : Nat) : Option (List Int × ℚ) :=
  match randomizedNearestNeighbor startNode numNodes adj s with
  | none => none
  | some (path, cost) =>
    let r := twoOpt adj fuel path cost
    some (r.1, r.2.1)

/-- `attemptOn` for a `Graph`, with `numNodes = graph.NodeCount()` as passed
by `SolveTSP`. -/
def attempt (g : Graph) (startNode : Int) (s : RandS) (fuel : Nat) :
    Option (List Int × ℚ) :=
  attemptOn g.edges (NodeCount g) startNode s fuel

/-- Shared best state guarded by the mutex: `bestPath`/`bestCost` (the
`none` value is the initial `bestPath = nil`, `bestCost = math.MaxFloat64`
sentinel) and the `totalCycles` counter. -/
structure BestSt where
  best : Option (List Int × ℚ)
  totalCycles : Nat
  deriving Repr, DecidableEq

/-- The critical section run after one worker attempt: a failed construction
(`none`) retries silently; a refined result increments `totalCycles` and
replaces the best on strict improvement (`cost < bestCost`; any cost beats
the `MaxFloat64` sentinel). -/
def workerStep (st : BestSt) (r : Option (List Int × ℚ)) : BestSt :=
  match r with
  | none => st
  | some (path, cost) =>
    { best :=
        match st.best with
        | none => some (path, cost)
        | some (bp, bc) => if cost < bc then some (path, cost) else some (bp, bc)
      totalCycles := st.totalCycles + 1 }

/-- `solve.go`: `SolveTSP(graph, maxCPU, maxSeconds)`.  The degenerate 0- and
1-node cases return before any worker is spawned.  Otherwise
`numWorkers = min(runtime.NumCPU(), maxCPU)`; when `numWorkers ≤ 0` the
spawn loop runs zero times, so no attempt is ever made.  `attempts` is the
sequence of per-attempt results (in mutex-acquisition order, across all
workers) completed before the deadline; the time budget itself is absorbed
into the length of that list and the per-attempt 2-opt fuel. -/
def SolveTSP (g : Graph) (numCPU maxCPU : Int)
    (attempts : List (Option (List Int × ℚ))) : List Int × ℚ × Nat :=
  if NodeCount g = 0 then ([], 0, 0)
  else if NodeCount g = 1 then (g.nodes, 0, 1)
  else
    let numWorkers := min numCPU maxCPU
    let completed := if numWorkers ≤ 0 then [] else attempts
    let st := completed.foldl workerStep ⟨none, 0⟩
    match st.best with
    | none => ([], 0, st.totalCycles)
    | some (bp, bc) => (bp, bc, st.totalCycles)

/-! ### Tour cost -/

/-- Cost of the open chain along a node sequence, each consecutive pair read
with the zero-default `graph.edges[a][b]` lookup. -/
def pathCost (adj : EdgeMap) : List Int → ℚ
  | [] => 0
  | [_] => 0
  | a :: b :: rest => weight0 adj a b + pathCost adj (b :: rest)

/-- Total cost of a node sequence read as a cycle: the open chain plus the
closing edge from the last node back to the first. -/
def tourCost (adj : EdgeMap) (p : List Int) : ℚ :=
  if p.isEmpty then 0 else pathCost adj p + weight0 adj (p.getLastD 0) (p.headD 0)

/-! ### Graph well-formedness and symmetry -/

/-- Structural invariants every `AddEdge`-built edge map/node list pair
enjoys: nodes and edge-map keys coincide, both are duplicate-free, every
adjacency list has duplicate-free keys, and every neighbor key is itself an
edge-map key. -/
def WF (g : Graph) : Prop :=
  (∀ k ∈ keysOf g.edges, k ∈ g.nodes) ∧
  (∀ n ∈ g.nodes, n ∈ keysOf g.edges) ∧
  g.nodes.Nodup ∧
  (keysOf g.edges).Nodup ∧
  (∀ p ∈ g.edges, (p.2.map Prod.fst).Nodup ∧ ∀ q ∈ p.2, q.1 ∈ keysOf g.edges)

instance (g : Graph) : Decidable (WF g) := by
  unfold WF; infer_instance

/-- The stored weight function is symmetric (presence and value). -/
def SymmA (adj : EdgeMap) : Prop := ∀ u v, edgeWeightA adj u v = edgeWeightA adj v u

/-- No stored self-loop. -/
def NoSelfLoop (g : Graph) : Prop := ∀ u, edgeWeight g u u = none

/-- Two graph values represent the same abstract graph: same node slice and
the same stored weight function.  Two runs of the Go program on one graph
see the same `sameEntries` class but need not see the same association
order, because Go randomizes map iteration order. -/
def sameEntries (g₁ g₂ : Graph) : Prop :=
  g₁.nodes = g₂.nodes ∧ ∀ u v, edgeWeight g₁ u v = edgeWeight g₂ u v

/-- The guard under which the sweep body applies the move at `(i, j)`: both
replacement edges exist and `delta < -1e-9`.  (The structural skip of the
pair `(0, size-1)` is not part of this predicate.) -/
def improvingMove (adj : EdgeMap) (size : Nat) (path : List Int) (i j : Nat) : Bool :=
  match edgeWeightA adj (path.getD i 0) (path.getD j 0),
        edgeWeightA adj (path.getD ((i + 1) % size) 0) (path.getD ((j + 1) % size) 0) with
  | some wNew1, some wNew2 =>
    decide ((wNew1 + wNew2) -
      (weight0 adj (path.getD i 0) (path.getD ((i + 1) % size) 0) +
       weight0 adj (path.getD j 0) (path.getD ((j + 1) % size) 0)) < -eps)
  | _, _ => false

/-! ### Concrete instances used to exercise the theorems -/

/-- Edge list of a complete 4-node graph with pairwise distinct weights. -/
def esK4 : List (Int × Int × ℚ) := [(1, 2, 1), (1, 3, 2), (1, 4, 3), (2, 3, 4), (2, 4, 5), (3, 4, 6)]

/-- The complete 4-node graph as `AddEdge` builds it. -/
def gK4 : Graph := buildGraph esK4

/-- The same abstract graph as `gK4` — same node slice, same weight function —
with every adjacency association listed in the opposite order, as another run
of the Go program may observe it when ranging over the maps. -/
def gK4rev : Graph :=
  ⟨[(4, [(3, 6), (2, 5), (1, 3)]), (3, [(4, 6), (2, 4), (1, 2)]),
    (1, [(4, 3), (3, 2), (2, 1)]), (2, [(4, 5), (3, 4), (1, 1)])],
   [2, 1, 3, 4]⟩

/-- The random stream whose every draw is 0. -/
def sZero : RandS := fun _ => 0

/-- The 4-node square with unit sides and weight-2 diagonals: the tour
`[1, 3, 2, 4]` (cost 6) admits the improving 2-opt move at positions
`(0, 2)` leading to the optimal square `[1, 2, 3, 4]` (cost 4). -/
def gSq : Graph := buildGraph [(1, 2, 1), (2, 3, 1), (3, 4, 1), (4, 1, 1), (1, 3, 2), (2, 4, 2)]

/-! ### Association-list lemmas -/

theorem alistGet_alistSet_self (k : Int) (v : α) (m : List (Int × α)) :
    alistGet k (alistSet k v m) = some v := by
  induction m with
  | nil => simp [alistGet, alistSet]
  | cons p rest ih =>
    obtain ⟨k', v'⟩ := p
    by_cases h : k = k'
    · simp [alistSet, alistGet, h]
    · simp [alistSet, alistGet, h, ih]

theorem alistGet_alistSet_ne (k k' : Int) (v : α) (m : List (Int × α)) (h : k ≠ k') :
    alistGet k (alistSet k' v m) = alistGet k m := by
  induction m with
  | nil => simp [alistGet, alistSet, h]
  | cons p rest ih =>
    obtain ⟨k'', v''⟩ := p
    by_cases h' : k' = k''
    · subst h'
      simp [alistSet, alistGet, h]
    · by_cases h'' : k = k''
      · simp [alistSet, alistGet, h', h'']
      · simp [alistSet, alistGet, h', h'', ih]

theorem alistGet_alistSet (k k' : Int) (v : α) (m : List (Int × α)) :
    alistGet k (alistSet k' v m) = if k = k' then some v else alistGet k m := by
  by_cases h : k = k'
  · subst h; simp [alistGet_alistSet_self]
  · simp [h, alistGet_alistSet_ne _ _ _ _ h]

theorem alistGet_mem {k : Int} {v : α} {m : List (Int × α)}
    (h : alistGet k m = some v) : (k, v) ∈ m := by
  induction m with
  | nil => simp [alistGet] at h
  | cons p rest ih =>
    obtain ⟨k', v'⟩ := p
    by_cases hk : k = k'
    · subst hk
      simp [alistGet] at h
      simp [h]
    · simp [alistGet, hk] at h
      exact List.mem_cons_of_mem _ (ih h)

theorem alistGet_isSome_iff_mem_keys {k : Int} {m : List (Int × α)} :
    (alistGet k m).isSome = true ↔ k ∈ m.map Prod.fst := by
  induction m with
  | nil => simp [alistGet]
  | cons p rest ih =>
    obtain ⟨k', v'⟩ := p
    by_cases hk : k = k'
    · subst hk; simp [alistGet]
    · simp [alistGet, hk, ih]

theorem alistGet_eq_none_iff {k : Int} {m : List (Int × α)} :
    alistGet k m = none ↔ k ∉ m.map Prod.fst := by
  rw [← alistGet_isSome_iff_mem_keys]
  cases alistGet k m <;> simp

theorem alistGet_of_mem_nodup {k : Int} {v : α} {m : List (Int × α)}
    (hnd : (m.map Prod.fst).Nodup) (h : (k, v) ∈ m) : alistGet k m = some v := by
  induction m with
  | nil => simp at h
  | cons p rest ih =>
    obtain ⟨k', v'⟩ := p
    simp only [List.map_cons, List.nodup_cons] at hnd
    rcases List.mem_cons.mp h with heq | hmem
    · injection heq with h1 h2
      subst h1; subst h2
      simp [alistGet]
    · have hk : k ≠ k' := fun hkk =>
        hnd.1 (List.mem_map.mpr ⟨(k, v), hmem, hkk ▸ rfl⟩)
      simp [alistGet, hk, ih hnd.2 hmem]

theorem keys_alistSet_of_mem {k : Int} (v : α) {m : List (Int × α)}
    (h : k ∈ m.map Prod.fst) :
    (alistSet k v m).map Prod.fst = m.map Prod.fst := by
  induction m with
  | nil => simp at h
  | cons p rest ih =>
    obtain ⟨k', v'⟩ := p
    by_cases hk : k = k'
    · simp [alistSet, hk]
    · simp only [List.map_cons, List.mem_cons] at h
      rcases h with h | h
      · exact absurd h hk
      · simp [alistSet, hk, ih h]

theorem keys_alistSet_of_not_mem {k : Int} (v : α) {m : List (Int × α)}
    (h : k ∉ m.map Prod.fst) :
    (alistSet k v m).map Prod.fst = m.map Prod.fst ++ [k] := by
  induction m with
  | nil => simp [alistSet]
  | cons p rest ih =>
    obtain ⟨k', v'⟩ := p
    simp only [List.map_cons, List.mem_cons] at h
    push_neg at h
    simp [alistSet, h.1, ih h.2]

theorem mem_alistSet {p : Int × α} {k : Int} {v : α} {m : List (Int × α)}
    (h : p ∈ alistSet k v m) : p ∈ m ∨ p = (k, v) := by
  induction m with
  | nil => simp [alistSet] at h; simp [h]
  | cons q rest ih =>
    obtain ⟨k', v'⟩ := q
    by_cases hk : k = k'
    · simp only [alistSet, if_pos hk] at h
      rcases List.mem_cons.mp h with h | h
      · right; exact h
      · left; exact List.mem_cons_of_mem _ h
    · simp only [alistSet, if_neg hk] at h
      rcases List.mem_cons.mp h with h | h
      · left; simp [h]
      · rcases ih h with h | h
        · left; exact List.mem_cons_of_mem _ h
        · right; exact h

/-! ### How the `AddEdge` building blocks act on the stored weight function -/

theorem edgeWeight_setWeight (g : Graph) (a b u v : Int) (w : ℚ) :
    edgeWeight (setWeight g a b w) u v =
      if u = a then (if v = b then some w else edgeWeight g a v) else edgeWeight g u v := by
  unfold edgeWeight edgeWeightA adjOf setWeight
  by_cases hu : u = a
  · subst hu
    simp [alistGet_alistSet_self, alistGet_alistSet]
  · simp [alistGet_alistSet_ne _ _ _ _ hu, hu]

theorem edgeWeight_registerNode (g : Graph) (k u v : Int) :
    edgeWeight (registerNode g k) u v = edgeWeight g u v := by
  unfold registerNode
  by_cases habs : alistGet k g.edges = none
  · rw [if_pos (by simp [habs])]
    unfold edgeWeight edgeWeightA adjOf
    show alistGet v ((alistGet u (alistSet k [] g.edges)).getD []) = _
    by_cases hu : u = k
    · subst hu
      simp [alistGet_alistSet_self, habs, alistGet]
    · simp [alistGet_alistSet_ne _ _ _ _ hu]
  · rw [if_neg (by simp [habs])]

theorem nodes_setWeight (g : Graph) (a b : Int) (w : ℚ) :
    (setWeight g a b w).nodes = g.nodes := rfl

theorem edgeWeight_AddEdge (g : Graph) (fr tn u v : Int) (w : ℚ) :
    edgeWeight (AddEdge g fr tn w) u v =
      if (u = min fr tn ∧ v = max fr tn) ∨ (u = max fr tn ∧ v = min fr tn)
      then some w else edgeWeight g u v := by
  unfold AddEdge
  rw [edgeWeight_setWeight]
  by_cases h1 : u = min fr tn
  · rw [if_pos h1]
    by_cases h2 : v = max fr tn
    · rw [if_pos h2, if_pos (Or.inl ⟨h1, h2⟩)]
    · rw [if_neg h2, edgeWeight_setWeight]
      by_cases h3 : min fr tn = max fr tn
      · rw [if_pos h3]
        by_cases h4 : v = min fr tn
        · exact absurd (h4.trans h3) h2
        · rw [if_neg h4, if_neg (by tauto), edgeWeight_registerNode,
            edgeWeight_registerNode, h1, h3]
      · rw [if_neg h3,
          if_neg (by rintro (⟨ha, hb⟩ | ⟨ha, hb⟩); exacts [h2 hb, h3 (h1.symm.trans ha)]),
          edgeWeight_registerNode, edgeWeight_registerNode, h1]
  · rw [if_neg h1, edgeWeight_setWeight]
    by_cases h2 : u = max fr tn
    · rw [if_pos h2]
      by_cases h3 : v = min fr tn
      · rw [if_pos h3, if_pos (Or.inr ⟨h2, h3⟩)]
      · rw [if_neg h3, if_neg (by tauto), edgeWeight_registerNode,
          edgeWeight_registerNode, h2]
    · rw [if_neg h2, if_neg (by tauto), edgeWeight_registerNode, edgeWeight_registerNode]

/-! ### Invariants of `AddEdge`-built graphs: symmetry, self-loops, well-formedness -/

theorem symm_AddEdge {g : Graph} (hs : ∀ u v, edgeWeight g u v = edgeWeight g v u)
    (fr tn : Int) (w : ℚ) :
    ∀ u v, edgeWeight (AddEdge g fr tn w) u v = edgeWeight (AddEdge g fr tn w) v u := by
  intro u v
  rw [edgeWeight_AddEdge, edgeWeight_AddEdge]
  by_cases hc : (u = min fr tn ∧ v = max fr tn) ∨ (u = max fr tn ∧ v = min fr tn)
  · rw [if_pos hc, if_pos (by tauto)]
  · rw [if_neg hc, if_neg (by tauto), hs u v]

theorem symm_buildGraph (es : List (Int × Int × ℚ)) :
    ∀ u v, edgeWeight (buildGraph es) u v = edgeWeight (buildGraph es) v u := by
  suffices h : ∀ (g : Graph), (∀ u v, edgeWeight g u v = edgeWeight g v u) →
      ∀ u v, edgeWeight (es.foldl (fun g e => AddEdge g e.1 e.2.1 e.2.2) g) u v =
        edgeWeight (es.foldl (fun g e => AddEdge g e.1 e.2.1 e.2.2) g) v u by
    exact h NewGraph (by intro u v; rfl)
  induction es with
  | nil => intro g hg; exact hg
  | cons e rest ih =>
    intro g hg
    exact ih _ (symm_AddEdge hg e.1 e.2.1 e.2.2)

theorem noSelfLoop_AddEdge {g : Graph} (hn : NoSelfLoop g) {fr tn : Int} (hne : fr ≠ tn)
    (w : ℚ) : NoSelfLoop (AddEdge g fr tn w) := by
  intro u
  have hminmax : min fr tn ≠ max fr tn := by
    rcases le_total fr tn with h | h
    · rw [min_eq_left h, max_eq_right h]; exact hne
    · rw [min_eq_right h, max_eq_left h]; exact fun h' => hne h'.symm
  rw [edgeWeight_AddEdge, if_neg, hn u]
  rintro (⟨h1, h2⟩ | ⟨h2, h1⟩) <;> exact hminmax (h1.symm.trans h2)

theorem registerNode_WF {g : Graph} (h : WF g) (k : Int) : WF (registerNode g k) := by
  obtain ⟨h1, h2, h3, h4, h5⟩ := h
  unfold registerNode
  by_cases habs : alistGet k g.edges = none
  · rw [if_pos (by simp [habs])]
    have hk : k ∉ keysOf g.edges := alistGet_eq_none_iff.mp habs
    have hkeys : keysOf (alistSet k ([] : Adj) g.edges) = keysOf g.edges ++ [k] :=
      keys_alistSet_of_not_mem _ hk
    refine ⟨?_, ?_, ?_, ?_, ?_⟩
    · intro x hx
      rw [show (Graph.mk (alistSet k [] g.edges) (g.nodes ++ [k])).edges =
        alistSet k [] g.edges from rfl, hkeys] at hx
      rcases List.mem_append.mp hx with hx | hx
      · exact List.mem_append.mpr (Or.inl (h1 x hx))
      · exact List.mem_append.mpr (Or.inr hx)
    · intro x hx
      rw [show (Graph.mk (alistSet k [] g.edges) (g.nodes ++ [k])).edges =
        alistSet k [] g.edges from rfl, hkeys]
      rcases List.mem_append.mp hx with hx | hx
      · exact List.mem_append.mpr (Or.inl (h2 x hx))
      · exact List.mem_append.mpr (Or.inr hx)
    · refine List.nodup_append.mpr ⟨h3, List.nodup_singleton k, ?_⟩
      intro x hx hx'
      rcases List.mem_singleton.mp hx' with rfl
      exact hk (h2 x hx)
    · show (keysOf (alistSet k [] g.edges)).Nodup
      rw [hkeys]
      refine List.nodup_append.mpr ⟨h4, List.nodup_singleton k, ?_⟩
      intro x hx hx'
      rcases List.mem_singleton.mp hx' with rfl
      exact hk hx
    · intro p hp
      rcases mem_alistSet hp with hp | hp
      · obtain ⟨hnd, hsub⟩ := h5 p hp
        refine ⟨hnd, fun q hq => ?_⟩
        show q.1 ∈ keysOf (alistSet k [] g.edges)
        rw [hkeys]
        exact List.mem_append.mpr (Or.inl (hsub q hq))
      · subst hp
        exact ⟨List.nodup_nil, by simp⟩
  · rw [if_neg (by simp [habs])]
    exact ⟨h1, h2, h3, h4, h5⟩

theorem setWeight_WF {g : Graph} (h : WF g) {a b : Int}
    (ha : a ∈ keysOf g.edges) (hb : b ∈ keysOf g.edges) (w : ℚ) :
    WF (setWeight g a b w) := by
  obtain ⟨h1, h2, h3, h4, h5⟩ := h
  have hkeys : keysOf (setWeight g a b w).edges = keysOf g.edges :=
    keys_alistSet_of_mem _ ha
  have hrow : (((alistGet a g.edges).getD []).map Prod.fst).Nodup ∧
      ∀ q ∈ (alistGet a g.edges).getD [], q.1 ∈ keysOf g.edges := by
    cases hga : alistGet a g.edges with
    | none => simp
    | some l => simpa using h5 (a, l) (alistGet_mem hga)
  refine ⟨?_, ?_, h3, ?_, ?_⟩
  · intro x hx; rw [hkeys] at hx; exact h1 x hx
  · intro x hx; rw [hkeys]; exact h2 x hx
  · rw [hkeys]; exact h4
  · intro p hp
    rcases mem_alistSet hp with hp | hp
    · obtain ⟨hnd, hsub⟩ := h5 p hp
      exact ⟨hnd, fun q hq => hkeys ▸ hsub q hq⟩
    · subst hp
      constructor
      · by_cases hbmem : b ∈ ((alistGet a g.edges).getD []).map Prod.fst
        · rw [keys_alistSet_of_mem _ hbmem]; exact hrow.1
        · rw [keys_alistSet_of_not_mem _ hbmem]
          exact List.nodup_append.mpr ⟨hrow.1, List.nodup_singleton b, by
            intro x hx hx'
            rcases List.mem_singleton.mp hx' with rfl
            exact hbmem hx⟩
      · intro q hq
        rcases mem_alistSet hq with hq | hq
        · exact hkeys ▸ hrow.2 q hq
        · subst hq; exact hkeys ▸ hb

theorem mem_keysOf_iff {k : Int} {m : EdgeMap} :
    k ∈ keysOf m ↔ (alistGet k m).isSome = true :=
  alistGet_isSome_iff_mem_keys.symm

theorem keysOf_alistSet_of_not_mem {k : Int} (v : Adj) {m : EdgeMap}
    (h : k ∉ keysOf m) : keysOf (alistSet k v m) = keysOf m ++ [k] :=
  keys_alistSet_of_not_mem v h

theorem mem_keys_registerNode_self (g : Graph) (k : Int) :
    k ∈ keysOf (registerNode g k).edges := by
  unfold registerNode
  by_cases habs : alistGet k g.edges = none
  · rw [if_pos (by simp [habs])]
    show k ∈ keysOf (alistSet k [] g.edges)
    rw [keysOf_alistSet_of_not_mem _ (alistGet_eq_none_iff.mp habs)]
    simp
  · rw [if_neg (by simp [habs])]
    rw [mem_keysOf_iff]
    cases hg : alistGet k g.edges with
    | none => exact absurd hg habs
    | some l => rfl

theorem mem_keys_registerNode_mono (g : Graph) (k x : Int)
    (hx : x ∈ keysOf g.edges) : x ∈ keysOf (registerNode g k).edges := by
  unfold registerNode
  by_cases habs : alistGet k g.edges = none
  · rw [if_pos (by simp [habs])]
    show x ∈ keysOf (alistSet k [] g.edges)
    rw [keysOf_alistSet_of_not_mem _ (alistGet_eq_none_iff.mp habs)]
    exact List.mem_append.mpr (Or.inl hx)
  · rw [if_neg (by simp [habs])]; exact hx

theorem keys_setWeight {g : Graph} {a : Int} (ha : a ∈ keysOf g.edges) (b : Int) (w : ℚ) :
    keysOf (setWeight g a b w).edges = keysOf g.edges :=
  keys_alistSet_of_mem _ ha

theorem AddEdge_WF {g : Graph} (h : WF g) (fr tn : Int) (w : ℚ) :
    WF (AddEdge g fr tn w) := by
  unfold AddEdge
  have hwf2 : WF (registerNode (registerNode g (max fr tn)) (min fr tn)) :=
    registerNode_WF (registerNode_WF h _) _
  have hf : max fr tn ∈ keysOf (registerNode (registerNode g (max fr tn)) (min fr tn)).edges :=
    mem_keys_registerNode_mono _ _ _ (mem_keys_registerNode_self g _)
  have ht : min fr tn ∈ keysOf (registerNode (registerNode g (max fr tn)) (min fr tn)).edges :=
    mem_keys_registerNode_self _ _
  have hwf3 := setWeight_WF hwf2 hf ht w
  have hkeys3 := keys_setWeight hf (min fr tn) w
  exact setWeight_WF hwf3 (hkeys3 ▸ ht) (hkeys3 ▸ hf) w

theorem NewGraph_WF : WF NewGraph := by
  refine ⟨?_, ?_, ?_, ?_, ?_⟩ <;> simp [NewGraph, keysOf]

theorem buildGraph_WF (es : List (Int × Int × ℚ)) : WF (buildGraph es) := by
  suffices hgen : ∀ (g : Graph), WF g →
      WF (es.foldl (fun g e => AddEdge g e.1 e.2.1 e.2.2) g) by
    exact hgen NewGraph NewGraph_WF
  induction es with
  | nil => intro g hg; exact hg
  | cons e rest ih => intro g hg; exact ih _ (AddEdge_WF hg e.1 e.2.1 e.2.2)

/-- In a well-formed graph, every neighbor read from an adjacency row is a
node of the graph. -/
theorem adjOf_mem_nodes {g : Graph} (h : WF g) {u : Int} {q : Int × ℚ}
    (hq : q ∈ adjOf g.edges u) : q.1 ∈ g.nodes := by
  obtain ⟨h1, _, _, _, h5⟩ := h
  unfold adjOf at hq
  cases hga : alistGet u g.edges with
  | none => rw [hga] at hq; simp at hq
  | some l =>
    rw [hga] at hq
    simp only [Option.getD_some] at hq
    exact h1 _ ((h5 (u, l) (alistGet_mem hga)).2 q hq)

/-- In a well-formed graph, a row entry read during iteration agrees with the
map lookup: `(v, w) ∈ g.edges[u]` gives `g.edges[u][v] = w`. -/
theorem adjOf_lookup {g : Graph} (h : WF g) {u : Int} {q : Int × ℚ}
    (hq : q ∈ adjOf g.edges u) : edgeWeightA g.edges u q.1 = some q.2 := by
  obtain ⟨_, _, _, _, h5⟩ := h
  unfold adjOf at hq
  unfold edgeWeightA adjOf
  cases hga : alistGet u g.edges with
  | none => rw [hga] at hq; simp at hq
  | some l =>
    rw [hga] at hq
    simp only [Option.getD_some] at hq ⊢
    exact alistGet_of_mem_nodup (h5 (u, l) (alistGet_mem hga)).1 hq

theorem noSelfLoop_buildGraph {es : List (Int × Int × ℚ)}
    (h : ∀ e ∈ es, e.1 ≠ e.2.1) : NoSelfLoop (buildGraph es) := by
  suffices hgen : ∀ (g : Graph), NoSelfLoop g →
      NoSelfLoop (es.foldl (fun g e => AddEdge g e.1 e.2.1 e.2.2) g) by
    exact hgen NewGraph (by intro u; rfl)
  induction es with
  | nil => intro g hg; exact hg
  | cons e rest ih =>
    intro g hg
    exact ih (fun e' he' => h e' (List.mem_cons_of_mem _ he'))
      _ (noSelfLoop_AddEdge hg (h e (List.mem_cons_self _ _)) e.2.2)

/-! ### Properties of the construction heuristic -/

theorem getD_mem {l : List α} {n : Nat} (h : n < l.length) (d : α) : l.getD n d ∈ l := by
  rw [List.getD_eq_getElem _ _ h]
  exact List.getElem_mem h

/-- One top-K step only keeps old candidates or adds the scanned, unvisited
neighbor. -/
theorem topKStep_mem {visited : List Int} {acc : List (Int × ℚ)} {nw y : Int × ℚ}
    (hy : y ∈ topKStep visited acc nw) :
    y ∈ acc ∨ (y = nw ∧ nw.1 ∉ visited) := by
  unfold topKStep at hy
  by_cases hc : visited.contains nw.1
  · rw [if_pos hc] at hy
    exact Or.inl hy
  · rw [if_neg hc] at hy
    have hnv : nw.1 ∉ visited := by simpa using hc
    by_cases hlen : acc.length < 3
    · rw [if_pos hlen] at hy
      rcases List.mem_append.mp hy with hy | hy
      · exact Or.inl hy
      · exact Or.inr ⟨List.mem_singleton.mp hy, hnv⟩
    · rw [if_neg hlen] at hy
      by_cases hw : nw.2 < (acc.getD (worstIdx acc) (0, 0)).2
      · simp only [if_pos hw] at hy
        rcases List.mem_or_eq_of_mem_set hy with hy | hy
        · exact Or.inl hy
        · exact Or.inr ⟨hy, hnv⟩
      · simp only [if_neg hw] at hy
        exact Or.inl hy

/-- Every candidate retained by the top-K selection comes from the scanned
neighbor list and is unvisited. -/
theorem selectTopK_mem {visited : List Int} {neighbors : Adj} {x : Int × ℚ}
    (hx : x ∈ selectTopK visited neighbors) :
    x ∈ neighbors ∧ x.1 ∉ visited := by
  suffices hgen : ∀ (nbrs : Adj) (acc : List (Int × ℚ)),
      ∀ y ∈ nbrs.foldl (topKStep visited) acc,
      y ∈ acc ∨ (y ∈ nbrs ∧ y.1 ∉ visited) by
    rcases hgen neighbors [] x hx with hy | hy
    · simp at hy
    · exact hy
  intro nbrs
  induction nbrs with
  | nil => intro acc y hy; exact Or.inl hy
  | cons nw rest ih =>
    intro acc y hy
    rw [List.foldl_cons] at hy
    rcases ih _ y hy with hy | hy
    · rcases topKStep_mem hy with hy | ⟨rfl, hnv⟩
      · exact Or.inl hy
      · exact Or.inr ⟨List.mem_cons_self _ _, hnv⟩
    · exact Or.inr ⟨List.mem_cons_of_mem _ hy.1, hy.2⟩

theorem pathCost_cons_cons (adj : EdgeMap) (a b : Int) (rest : List Int) :
    pathCost adj (a :: b :: rest) = weight0 adj a b + pathCost adj (b :: rest) := by
  simp [pathCost]

theorem getLastD_cons_cons (a b : Int) (rest : List Int) :
    (a :: b :: rest).getLastD 0 = (b :: rest).getLastD 0 := by
  simp [List.getLastD_eq_getLast?, List.getLast?_cons_cons]

theorem pathCost_append (adj : EdgeMap) :
    ∀ (a b : List Int), a ≠ [] → b ≠ [] →
      pathCost adj (a ++ b) =
        pathCost adj a + weight0 adj (a.getLastD 0) (b.headD 0) + pathCost adj b := by
  intro a
  induction a with
  | nil => intro b h _; exact absurd rfl h
  | cons x xs ih =>
    intro b _ hb
    cases xs with
    | nil =>
      cases b with
      | nil => exact absurd rfl hb
      | cons y ys => simp [pathCost]
    | cons z zs =>
      have h1 : (x :: z :: zs) ++ b = x :: ((z :: zs) ++ b) := rfl
      have h2 : (z :: zs) ++ b = z :: (zs ++ b) := rfl
      rw [h1, h2, pathCost_cons_cons, ← h2, ih b (by simp) hb,
        getLastD_cons_cons, pathCost_cons_cons]
      ring

theorem pathCost_concat (adj : EdgeMap) {a : List Int} (ha : a ≠ []) (x : Int) :
    pathCost adj (a ++ [x]) = pathCost adj a + weight0 adj (a.getLastD 0) x := by
  rw [pathCost_append adj a [x] ha (by simp)]
  simp [pathCost]

/-- The main loop invariant of `randomizedNearestNeighbor`: on success the
returned tour extends the partial path by one node per remaining fuel unit,
stays duplicate-free inside the graph's node set, starts at the path's head,
and its returned cost is exactly the cycle cost of the returned tour. -/
theorem rnnLoop_spec {g : Graph} (hwf : WF g) (s : RandS) :
    ∀ (fuel ci : Nat) (current : Int) (visited path : List Int) (cost : ℚ)
      (_ : path ≠ [])
      (_ : path.getLastD 0 = current)
      (_ : ∀ x, x ∈ visited ↔ x ∈ path)
      (_ : path.Nodup)
      (_ : ∀ x ∈ path, x ∈ g.nodes)
      (_ : cost = pathCost g.edges path)
      {tour : List Int} {c : ℚ}
      (_ : rnnLoop g.edges s fuel ci current visited path cost = some (tour, c)),
      tour.length = path.length + fuel ∧ tour.Nodup ∧ (∀ x ∈ tour, x ∈ g.nodes) ∧
        tour.headD 0 = path.headD 0 ∧ c = tourCost g.edges tour := by
  intro fuel
  induction fuel with
  | zero =>
    intro ci current visited path cost hne hcur hvis hnd hsub hcost tour c hrun
    unfold rnnLoop at hrun
    cases hclose : alistGet (path.headD 0) (adjOf g.edges (path.getLastD 0)) with
    | none => rw [hclose] at hrun; exact absurd hrun (by simp)
    | some w =>
      rw [hclose] at hrun
      simp only [Option.some.injEq, Prod.mk.injEq] at hrun
      obtain ⟨h1, h2⟩ := hrun
      subst h1; subst h2
      refine ⟨by simp, hnd, hsub, rfl, ?_⟩
      have hw0 : weight0 g.edges (path.getLastD 0) (path.headD 0) = w := by
        unfold weight0 edgeWeightA
        rw [hclose]
        rfl
      rw [show tourCost g.edges path =
          pathCost g.edges path + weight0 g.edges (path.getLastD 0) (path.headD 0) by
            unfold tourCost
            rw [if_neg (by simp [hne])],
        hcost, hw0]
  | succ fuel ih =>
    intro ci current visited path cost hne hcur hvis hnd hsub hcost tour c hrun
    unfold rnnLoop at hrun
    by_cases hk : (selectTopK visited (adjOf g.edges current)).length = 0
    · rw [if_pos hk] at hrun; exact absurd hrun (by simp)
    · rw [if_neg hk] at hrun
      set topK := selectTopK visited (adjOf g.edges current) with htopK
      set choice := topK.getD (s ci % topK.length) (0, 0) with hchoice
      have hcmem : choice ∈ topK :=
        getD_mem (Nat.mod_lt _ (Nat.pos_of_ne_zero hk)) _
      obtain ⟨hcadj, hcunvis⟩ := selectTopK_mem (htopK ▸ hcmem)
      have hcnotpath : choice.1 ∉ path := fun hmem =>
        hcunvis ((hvis choice.1).mpr hmem)
      have hcnode : choice.1 ∈ g.nodes := adjOf_mem_nodes hwf hcadj
      have hlookup : edgeWeightA g.edges current choice.1 = some choice.2 :=
        adjOf_lookup hwf hcadj
      obtain ⟨hl, hn2, hs2, hh2, hc2⟩ := ih (ci + 1) choice.1 (visited ++ [choice.1])
        (path ++ [choice.1]) (cost + choice.2)
        (by simp)
        (List.getLastD_concat _ _ _)
        (by intro x; simp [hvis x])
        (by
          rw [List.nodup_append]
          exact ⟨hnd, List.nodup_singleton _, by
            intro x hx hx'
            rcases List.mem_singleton.mp hx' with rfl
            exact hcnotpath hx⟩)
        (by
          intro x hx
          rcases List.mem_append.mp hx with hx | hx
          · exact hsub x hx
          · rcases List.mem_singleton.mp hx with rfl; exact hcnode)
        (by
          rw [pathCost_concat _ hne, hcost, hcur, weight0, hlookup]
          rfl)
        hrun
      refine ⟨by rw [hl]; simp; omega, hn2, hs2, ?_, hc2⟩
      rw [hh2]
      cases path with
      | nil => exact absurd rfl hne
      | cons p ps => rfl

/-! ### List indexing helpers -/

theorem headD_eq_getD_zero (l : List α) (d : α) : l.headD d = l.getD 0 d := by
  cases l <;> rfl

theorem getD_take {p : List α} {n m : Nat} (h : m < n) (d : α) :
    (p.take n).getD m d = p.getD m d := by
  rw [List.getD_eq_getElem?_getD, List.getD_eq_getElem?_getD, List.getElem?_take, if_pos h]

theorem getD_drop (p : List α) (n m : Nat) (d : α) :
    (p.drop n).getD m d = p.getD (n + m) d := by
  rw [List.getD_eq_getElem?_getD, List.getD_eq_getElem?_getD, List.getElem?_drop]

theorem getLastD_eq_getD {l : List α} (h : l ≠ []) (d : α) :
    l.getLastD d = l.getD (l.length - 1) d := by
  induction l with
  | nil => exact absurd rfl h
  | cons x xs ih =>
    cases xs with
    | nil => rfl
    | cons y ys =>
      rw [show (x :: y :: ys).getLastD d = (y :: ys).getLastD d by
          simp [List.getLastD_eq_getLast?, List.getLast?_cons_cons],
        ih (by simp)]
      have hlen : (x :: y :: ys).length - 1 = ((y :: ys).length - 1) + 1 := by
        simp
      rw [hlen]
      rfl

theorem headD_append_left {a : List α} (b : List α) (ha : a ≠ []) (d : α) :
    (a ++ b).headD d = a.headD d := by
  rw [List.headD_eq_head?, List.headD_eq_head?, List.head?_append_of_ne_nil _ ha]

theorem getLastD_append_right (a : List α) {b : List α} (hb : b ≠ []) (d : α) :
    (a ++ b).getLastD d = b.getLastD d := by
  rw [List.getLastD_eq_getLast?, List.getLastD_eq_getLast?,
    List.getLast?_append_of_ne_nil _ hb]

theorem headD_reverse (l : List α) (d : α) : l.reverse.headD d = l.getLastD d := by
  rw [List.headD_eq_head?, List.getLastD_eq_getLast?, List.head?_reverse]

theorem getLastD_reverse (l : List α) (d : α) : l.reverse.getLastD d = l.headD d := by
  rw [List.headD_eq_head?, List.getLastD_eq_getLast?, List.getLast?_reverse]

/-! ### Cost of a tour under a segment reversal -/

theorem weight0_symm {adj : EdgeMap} (hsym : SymmA adj) (u v : Int) :
    weight0 adj u v = weight0 adj v u := by
  unfold weight0
  rw [hsym u v]

theorem pathCost_reverse {adj : EdgeMap} (hsym : SymmA adj) :
    ∀ l : List Int, pathCost adj l.reverse = pathCost adj l := by
  intro l
  induction l with
  | nil => rfl
  | cons x xs ih =>
    cases xs with
    | nil => rfl
    | cons y ys =>
      rw [show (x :: y :: ys).reverse = (y :: ys).reverse ++ [x] by simp]
      rw [pathCost_concat adj (by simp) x, ih, getLastD_reverse,
        pathCost_cons_cons, weight0_symm hsym]
      rw [show (y :: ys).headD 0 = y from rfl]
      ring

/-- Reversing the middle block of a cycle `A ++ B ++ C` exchanges the two
boundary edges `(lastA, headB)` and `(lastB, head (C ++ A))` for
`(lastA, lastB)` and `(headB, head (C ++ A))`; under a symmetric weight
function every other edge keeps its cost. -/
theorem tourCost_ABC {adj : EdgeMap} (hsym : SymmA adj) (A B C : List Int)
    (hA : A ≠ []) (hB : B ≠ []) :
    tourCost adj (A ++ B.reverse ++ C) =
      tourCost adj (A ++ B ++ C) +
        ((weight0 adj (A.getLastD 0) (B.getLastD 0) +
          weight0 adj (B.headD 0) ((C ++ A).headD 0)) -
         (weight0 adj (A.getLastD 0) (B.headD 0) +
          weight0 adj (B.getLastD 0) ((C ++ A).headD 0))) := by
  have hBrev : B.reverse ≠ [] := by simpa using hB
  cases C with
  | nil =>
    simp only [List.append_nil, List.nil_append]
    have h1 : tourCost adj (A ++ B) =
        pathCost adj A + weight0 adj (A.getLastD 0) (B.headD 0) + pathCost adj B +
          weight0 adj (B.getLastD 0) (A.headD 0) := by
      unfold tourCost
      rw [if_neg (by simp [hA]), pathCost_append adj A B hA hB,
        getLastD_append_right _ hB, headD_append_left _ hA]
    have h2 : tourCost adj (A ++ B.reverse) =
        pathCost adj A + weight0 adj (A.getLastD 0) (B.getLastD 0) + pathCost adj B +
          weight0 adj (B.headD 0) (A.headD 0) := by
      unfold tourCost
      rw [if_neg (by simp [hA]), pathCost_append adj A B.reverse hA hBrev,
        getLastD_append_right _ hBrev, headD_append_left _ hA,
        headD_reverse, getLastD_reverse, pathCost_reverse hsym]
    rw [h1, h2]
    ring
  | cons c cs =>
    have hC : (c :: cs : List Int) ≠ [] := by simp
    have hAB : A ++ B ≠ [] := by simp [hA]
    have hABrev : A ++ B.reverse ≠ [] := by simp [hA]
    have h1 : tourCost adj (A ++ B ++ (c :: cs)) =
        pathCost adj A + weight0 adj (A.getLastD 0) (B.headD 0) + pathCost adj B +
          weight0 adj (B.getLastD 0) ((c :: cs).headD 0) + pathCost adj (c :: cs) +
          weight0 adj ((c :: cs).getLastD 0) (A.headD 0) := by
      unfold tourCost
      rw [if_neg (by simp [hA]), pathCost_append adj (A ++ B) (c :: cs) hAB hC,
        pathCost_append adj A B hA hB, getLastD_append_right _ hC,
        getLastD_append_right _ hB, headD_append_left _ hAB, headD_append_left _ hA]
    have h2 : tourCost adj (A ++ B.reverse ++ (c :: cs)) =
        pathCost adj A + weight0 adj (A.getLastD 0) (B.getLastD 0) + pathCost adj B +
          weight0 adj (B.headD 0) ((c :: cs).headD 0) + pathCost adj (c :: cs) +
          weight0 adj ((c :: cs).getLastD 0) (A.headD 0) := by
      unfold tourCost
      rw [if_neg (by simp [hA]), pathCost_append adj (A ++ B.reverse) (c :: cs) hABrev hC,
        pathCost_append adj A B.reverse hA hBrev, getLastD_append_right _ hC,
        getLastD_append_right _ hBrev, headD_append_left _ hABrev, headD_append_left _ hA,
        headD_reverse, getLastD_reverse, pathCost_reverse hsym]
    rw [h1, h2, headD_append_left _ hC]
    ring

/-- The central 2-opt accounting identity: for a symmetric weight function,
reversing `path[i+1 .. j]` changes the cycle cost by exactly the `delta`
computed by the sweep body from positions `i`, `i+1`, `j`, `(j+1) % size`. -/
theorem tourCost_reverse_seg {adj : EdgeMap} (hsym : SymmA adj) (p : List Int)
    (i j : Nat) (hij : i + 2 ≤ j) (hj : j < p.length) :
    tourCost adj (reverse p (i + 1) j) =
      tourCost adj p +
        ((weight0 adj (p.getD i 0) (p.getD j 0) +
          weight0 adj (p.getD ((i + 1) % p.length) 0) (p.getD ((j + 1) % p.length) 0)) -
         (weight0 adj (p.getD i 0) (p.getD ((i + 1) % p.length) 0) +
          weight0 adj (p.getD j 0) (p.getD ((j + 1) % p.length) 0))) := by
  set n := p.length with hn
  set A := p.take (i + 1) with hAdef
  set B := (p.drop (i + 1)).take (j - i) with hBdef
  set C := p.drop (j + 1) with hCdef
  have hin : i + 1 < n := by omega
  have hAlen : A.length = i + 1 := by
    rw [hAdef, List.length_take]
    omega
  have hBlen : B.length = j - i := by
    rw [hBdef, List.length_take, List.length_drop]
    omega
  have hClen : C.length = n - (j + 1) := by
    rw [hCdef, List.length_drop]
  have hA : A ≠ [] := by
    intro h
    rw [h] at hAlen
    simp at hAlen
  have hB : B ≠ [] := by
    intro h
    rw [h] at hBlen
    simp at hBlen
    omega
  have hp : p = A ++ B ++ C := by
    rw [List.append_assoc, hAdef, hBdef, hCdef]
    rw [show p.drop (j + 1) = (p.drop (i + 1)).drop (j - i) by
      rw [List.drop_drop]
      congr 1
      omega]
    rw [List.take_append_drop, List.take_append_drop]
  have hq : reverse p (i + 1) j = A ++ B.reverse ++ C := by
    unfold reverse
    rw [show j + 1 - (i + 1) = j - i by omega]
  -- boundary elements in terms of positions of `p`
  have hlastA : A.getLastD 0 = p.getD i 0 := by
    rw [getLastD_eq_getD hA, hAlen, hAdef]
    rw [show i + 1 - 1 = i by omega, getD_take (by omega)]
  have hheadB : B.headD 0 = p.getD (i + 1) 0 := by
    rw [headD_eq_getD_zero, hBdef, getD_take (by omega), getD_drop]
  have hlastB : B.getLastD 0 = p.getD j 0 := by
    rw [getLastD_eq_getD hB, hBlen, hBdef, getD_take (by omega), getD_drop]
    congr 1
    omega
  have hmodi : (i + 1) % n = i + 1 := Nat.mod_eq_of_lt hin
  by_cases hend : j + 1 = n
  · -- the reversed block reaches the end of the tour: `C = []`
    have hC : C = [] := by
      have : C.length = 0 := by omega
      exact List.length_eq_zero.mp this
    have hmodj : (j + 1) % n = 0 := by
      rw [hend, Nat.mod_self]
    have hheadCA : (C ++ A).headD 0 = p.getD 0 0 := by
      rw [hC, List.nil_append, headD_eq_getD_zero, hAdef, getD_take (by omega)]
    rw [hq, tourCost_ABC hsym A B C hA hB, ← hp, hlastA, hheadB, hlastB, hheadCA,
      hmodi, hmodj]
  · -- the reversed block is interior: `C ≠ []`
    have hC : C ≠ [] := by
      intro h
      rw [h] at hClen
      simp at hClen
      omega
    have hmodj : (j + 1) % n = j + 1 := Nat.mod_eq_of_lt (by omega)
    have hheadCA : (C ++ A).headD 0 = p.getD (j + 1) 0 := by
      rw [headD_append_left _ hC, headD_eq_getD_zero, hCdef, getD_drop]
    rw [hq, tourCost_ABC hsym A B C hA hB, ← hp, hlastA, hheadB, hlastB, hheadCA,
      hmodi, hmodj]

/-! ### Properties of the 2-opt sweep machinery -/

theorem eps_pos : 0 < eps := by norm_num [eps]

theorem mem_sweepPairs {size : Nat} {ij : Nat × Nat} :
    ij ∈ sweepPairs size ↔ ij.1 < size ∧ ij.1 + 2 ≤ ij.2 ∧ ij.2 < size := by
  obtain ⟨i, j⟩ := ij
  unfold sweepPairs
  simp only [List.mem_flatMap, List.mem_map, List.mem_filter, List.mem_range]
  constructor
  · rintro ⟨i', hi', j', ⟨⟨hj', hle⟩, heq⟩⟩
    obtain ⟨rfl, rfl⟩ := Prod.mk.injEq .. ▸ heq
    exact ⟨hi', by simpa using hle, hj'⟩
  · rintro ⟨hi, hle, hj⟩
    exact ⟨i, hi, j, ⟨⟨hj, by simpa using hle⟩, rfl⟩⟩

/-- Case analysis on one sweep-body application: either the state is returned
unchanged, or the guard `improvingMove` held, the pair was not the skipped
one, and the move was applied. -/
theorem twoOptStep_cases (adj : EdgeMap) (size : Nat) (st : SweepSt) (ij : Nat × Nat) :
    twoOptStep adj size st ij = st ∨
      (¬(ij.1 = 0 ∧ ij.2 = size - 1) ∧
        improvingMove adj size st.path ij.1 ij.2 = true ∧
        twoOptStep adj size st ij =
          ⟨reverse st.path (ij.1 + 1) ij.2,
            st.cost +
              ((weight0 adj (st.path.getD ij.1 0) (st.path.getD ij.2 0) +
                weight0 adj (st.path.getD ((ij.1 + 1) % size) 0)
                  (st.path.getD ((ij.2 + 1) % size) 0)) -
               (weight0 adj (st.path.getD ij.1 0) (st.path.getD ((ij.1 + 1) % size) 0) +
                weight0 adj (st.path.getD ij.2 0) (st.path.getD ((ij.2 + 1) % size) 0))),
            true⟩) := by
  by_cases hskip : ij.1 = 0 ∧ ij.2 = size - 1
  · left
    unfold twoOptStep
    rw [if_pos hskip]
  · cases h1 : edgeWeightA adj (st.path.getD ij.1 0) (st.path.getD ij.2 0) with
    | none =>
      left
      unfold twoOptStep
      rw [if_neg hskip, h1]
    | some wNew1 =>
      cases h2 : edgeWeightA adj (st.path.getD ((ij.1 + 1) % size) 0)
          (st.path.getD ((ij.2 + 1) % size) 0) with
      | none =>
        left
        unfold twoOptStep
        rw [if_neg hskip, h1, h2]
      | some wNew2 =>
        have hw1 : weight0 adj (st.path.getD ij.1 0) (st.path.getD ij.2 0) = wNew1 := by
          unfold weight0; rw [h1]; rfl
        have hw2 : weight0 adj (st.path.getD ((ij.1 + 1) % size) 0)
            (st.path.getD ((ij.2 + 1) % size) 0) = wNew2 := by
          unfold weight0; rw [h2]; rfl
        have hred : twoOptStep adj size st ij =
            if (wNew1 + wNew2) -
                (weight0 adj (st.path.getD ij.1 0) (st.path.getD ((ij.1 + 1) % size) 0) +
                 weight0 adj (st.path.getD ij.2 0) (st.path.getD ((ij.2 + 1) % size) 0)) < -eps
            then
              ⟨reverse st.path (ij.1 + 1) ij.2,
                st.cost +
                  ((wNew1 + wNew2) -
                   (weight0 adj (st.path.getD ij.1 0) (st.path.getD ((ij.1 + 1) % size) 0) +
                    weight0 adj (st.path.getD ij.2 0) (st.path.getD ((ij.2 + 1) % size) 0))),
                true⟩
            else st := by
          unfold twoOptStep
          rw [if_neg hskip, h1, h2]
        have hredIM : improvingMove adj size st.path ij.1 ij.2 =
            decide ((wNew1 + wNew2) -
              (weight0 adj (st.path.getD ij.1 0) (st.path.getD ((ij.1 + 1) % size) 0) +
               weight0 adj (st.path.getD ij.2 0) (st.path.getD ((ij.2 + 1) % size) 0)) < -eps) := by
          unfold improvingMove
          rw [h1, h2]
        by_cases hd : (wNew1 + wNew2) -
            (weight0 adj (st.path.getD ij.1 0) (st.path.getD ((ij.1 + 1) % size) 0) +
             weight0 adj (st.path.getD ij.2 0) (st.path.getD ((ij.2 + 1) % size) 0)) < -eps
        · right
          refine ⟨hskip, ?_, ?_⟩
          · rw [hredIM]
            exact decide_eq_true hd
          · rw [hred, if_pos hd, hw1, hw2]
        · left
          rw [hred, if_neg hd]

theorem twoOptStep_improved_mono {adj : EdgeMap} {size : Nat} {st : SweepSt}
    {ij : Nat × Nat} (h : st.improved = true) :
    (twoOptStep adj size st ij).improved = true := by
  rcases twoOptStep_cases adj size st ij with hc | ⟨_, _, hc⟩
  · rw [hc]; exact h
  · rw [hc]

theorem foldl_twoOptStep_improved_mono {adj : EdgeMap} {size : Nat} :
    ∀ (l : List (Nat × Nat)) (st : SweepSt), st.improved = true →
      (l.foldl (twoOptStep adj size) st).improved = true := by
  intro l
  induction l with
  | nil => intro st h; exact h
  | cons ij rest ih =>
    intro st h
    rw [List.foldl_cons]
    exact ih _ (twoOptStep_improved_mono h)

theorem twoOptStep_of_improved_false {adj : EdgeMap} {size : Nat} {st : SweepSt}
    {ij : Nat × Nat} (h : (twoOptStep adj size st ij).improved = false) :
    twoOptStep adj size st ij = st := by
  rcases twoOptStep_cases adj size st ij with hc | ⟨_, _, hc⟩
  · exact hc
  · rw [hc] at h
    simp at h

/-- A sweep prefix that ends unimproved left the state untouched at every
step, and every step of it was a non-move. -/
theorem foldl_twoOptStep_no_improve {adj : EdgeMap} {size : Nat} :
    ∀ (l : List (Nat × Nat)) (st : SweepSt), st.improved = false →
      (l.foldl (twoOptStep adj size) st).improved = false →
      l.foldl (twoOptStep adj size) st = st ∧
        ∀ ij ∈ l, twoOptStep adj size st ij = st := by
  intro l
  induction l with
  | nil => intro st h _; exact ⟨rfl, by simp⟩
  | cons ij rest ih =>
    intro st hst hend
    rw [List.foldl_cons] at hend ⊢
    have h1 : (twoOptStep adj size st ij).improved = false := by
      cases hb : (twoOptStep adj size st ij).improved with
      | false => rfl
      | true =>
        rw [foldl_twoOptStep_improved_mono rest _ hb] at hend
        simp at hend
    have h2 : twoOptStep adj size st ij = st := twoOptStep_of_improved_false h1
    rw [h2] at hend ⊢
    obtain ⟨hfold, hall⟩ := ih st hst hend
    refine ⟨hfold, fun ij' hij' => ?_⟩
    rcases List.mem_cons.mp hij' with rfl | hij'
    · exact h2
    · exact hall ij' hij'

/-- When the guard holds at an unskipped pair, the step applies the move and
raises the `improved` flag. -/
theorem twoOptStep_of_improving {adj : EdgeMap} {size : Nat} {st : SweepSt}
    {ij : Nat × Nat} (hskip : ¬(ij.1 = 0 ∧ ij.2 = size - 1))
    (himp : improvingMove adj size st.path ij.1 ij.2 = true) :
    (twoOptStep adj size st ij).improved = true := by
  unfold improvingMove at himp
  cases h1 : edgeWeightA adj (st.path.getD ij.1 0) (st.path.getD ij.2 0) with
  | none => rw [h1] at himp; simp at himp
  | some wNew1 =>
    cases h2 : edgeWeightA adj (st.path.getD ((ij.1 + 1) % size) 0)
        (st.path.getD ((ij.2 + 1) % size) 0) with
    | none => rw [h1, h2] at himp; simp at himp
    | some wNew2 =>
      rw [h1, h2] at himp
      have hd := of_decide_eq_true himp
      have hred0 : twoOptStep adj size st ij =
          if (wNew1 + wNew2) -
              (weight0 adj (st.path.getD ij.1 0) (st.path.getD ((ij.1 + 1) % size) 0) +
               weight0 adj (st.path.getD ij.2 0) (st.path.getD ((ij.2 + 1) % size) 0)) < -eps
          then
            ⟨reverse st.path (ij.1 + 1) ij.2,
              st.cost +
                ((wNew1 + wNew2) -
                 (weight0 adj (st.path.getD ij.1 0) (st.path.getD ((ij.1 + 1) % size) 0) +
                  weight0 adj (st.path.getD ij.2 0) (st.path.getD ((ij.2 + 1) % size) 0))),
              true⟩
          else st := by
        unfold twoOptStep
        rw [if_neg hskip, h1, h2]
      rw [hred0, if_pos hd]

theorem twoOptStep_no_move_of_eq {adj : EdgeMap} {size : Nat} {st : SweepSt}
    {ij : Nat × Nat} (hst : st.improved = false)
    (heq : twoOptStep adj size st ij = st)
    (hskip : ¬(ij.1 = 0 ∧ ij.2 = size - 1)) :
    improvingMove adj size st.path ij.1 ij.2 = false := by
  cases himp : improvingMove adj size st.path ij.1 ij.2 with
  | false => rfl
  | true =>
    have h1 : (twoOptStep adj size st ij).improved = true :=
      twoOptStep_of_improving hskip himp
    rw [heq, hst] at h1
    simp at h1

theorem reverse_length {p : List Int} {i j : Nat} (hi : i ≤ j + 1) (hj : j < p.length) :
    (TSPGo.reverse p i j).length = p.length := by
  unfold TSPGo.reverse
  simp only [List.length_append, List.length_take, List.length_reverse, List.length_drop]
  simp only [Nat.min_def]
  split_ifs <;> omega

theorem reverse_perm {p : List Int} {i j : Nat} (hi : i ≤ j + 1) :
    (TSPGo.reverse p i j).Perm p := by
  have hmid : (p.drop i).take (j + 1 - i) ++ p.drop (j + 1) = p.drop i := by
    rw [show p.drop (j + 1) = (p.drop i).drop (j + 1 - i) by
        rw [List.drop_drop]
        congr 1
        omega,
      List.take_append_drop]
  have hperm : (TSPGo.reverse p i j).Perm
      (p.take i ++ ((p.drop i).take (j + 1 - i) ++ p.drop (j + 1))) := by
    unfold TSPGo.reverse
    refine ((List.Perm.append (List.Perm.append (List.Perm.refl (p.take i))
      (List.reverse_perm _)) (List.Perm.refl (p.drop (j + 1)))).trans ?_)
    rw [List.append_assoc]
  rw [hmid, List.take_append_drop] at hperm
  exact hperm

/-- The `delta` of a guard that holds is strictly below `-1e-9`. -/
theorem improvingMove_delta_lt {adj : EdgeMap} {size : Nat} {path : List Int} {i j : Nat}
    (h : improvingMove adj size path i j = true) :
    (weight0 adj (path.getD i 0) (path.getD j 0) +
     weight0 adj (path.getD ((i + 1) % size) 0) (path.getD ((j + 1) % size) 0)) -
    (weight0 adj (path.getD i 0) (path.getD ((i + 1) % size) 0) +
     weight0 adj (path.getD j 0) (path.getD ((j + 1) % size) 0)) < -eps := by
  unfold improvingMove at h
  cases h1 : edgeWeightA adj (path.getD i 0) (path.getD j 0) with
  | none => rw [h1] at h; simp at h
  | some wNew1 =>
    cases h2 : edgeWeightA adj (path.getD ((i + 1) % size) 0) (path.getD ((j + 1) % size) 0) with
    | none => rw [h1, h2] at h; simp at h
    | some wNew2 =>
      rw [h1, h2] at h
      have hd := of_decide_eq_true h
      have hw1 : weight0 adj (path.getD i 0) (path.getD j 0) = wNew1 := by
        unfold weight0; rw [h1]; rfl
      have hw2 : weight0 adj (path.getD ((i + 1) % size) 0) (path.getD ((j + 1) % size) 0)
          = wNew2 := by
        unfold weight0; rw [h2]; rfl
      rw [hw1, hw2]
      exact hd

theorem twoOptStep_length {adj : EdgeMap} {size : Nat} {st : SweepSt} {ij : Nat × Nat}
    (hij : ij.1 + 2 ≤ ij.2) (hj : ij.2 < size) (hlen : st.path.length = size) :
    (twoOptStep adj size st ij).path.length = size := by
  rcases twoOptStep_cases adj size st ij with hc | ⟨_, _, hc⟩
  · rw [hc]; exact hlen
  · rw [hc]
    show (TSPGo.reverse st.path (ij.1 + 1) ij.2).length = size
    rw [reverse_length (by omega) (by rw [hlen]; exact hj)]
    exact hlen

theorem twoOptStep_perm {adj : EdgeMap} {size : Nat} {st : SweepSt} {ij : Nat × Nat}
    (hij : ij.1 + 2 ≤ ij.2) :
    (twoOptStep adj size st ij).path.Perm st.path := by
  rcases twoOptStep_cases adj size st ij with hc | ⟨_, _, hc⟩
  · rw [hc]
  · rw [hc]
    exact reverse_perm (by omega)

theorem twoOptStep_cost_le {adj : EdgeMap} {size : Nat} (st : SweepSt) (ij : Nat × Nat) :
    (twoOptStep adj size st ij).cost ≤ st.cost := by
  rcases twoOptStep_cases adj size st ij with hc | ⟨_, himp, hc⟩
  · rw [hc]
  · rw [hc]
    show st.cost + _ ≤ st.cost
    have hd := improvingMove_delta_lt himp
    have he := eps_pos
    linarith

theorem twoOptStep_cost_lt_of_ne {adj : EdgeMap} {size : Nat} {st : SweepSt} {ij : Nat × Nat}
    (hne : twoOptStep adj size st ij ≠ st) :
    (twoOptStep adj size st ij).cost < st.cost - eps := by
  rcases twoOptStep_cases adj size st ij with hc | ⟨_, himp, hc⟩
  · exact absurd hc hne
  · rw [hc]
    show st.cost + _ < st.cost - eps
    have hd := improvingMove_delta_lt himp
    linarith

/-- Applying one sweep step preserves the invariant `cost = tourCost path`
for symmetric adjacency (the incremental `delta` update is exact). -/
theorem twoOptStep_cost_inv {adj : EdgeMap} {size : Nat} {st : SweepSt} {ij : Nat × Nat}
    (hsym : SymmA adj) (hij : ij.1 + 2 ≤ ij.2) (hj : ij.2 < size)
    (hlen : st.path.length = size) (hinv : st.cost = tourCost adj st.path) :
    (twoOptStep adj size st ij).cost = tourCost adj (twoOptStep adj size st ij).path := by
  rcases twoOptStep_cases adj size st ij with hc | ⟨_, _, hc⟩
  · rw [hc]; exact hinv
  · rw [hc]
    show st.cost + _ = tourCost adj (TSPGo.reverse st.path (ij.1 + 1) ij.2)
    rw [tourCost_reverse_seg hsym st.path ij.1 ij.2 hij (by rw [hlen]; exact hj), hinv, hlen]

/-! ### Sweep-level and loop-level invariants -/

theorem foldl_twoOptStep_length {adj : EdgeMap} {size : Nat} :
    ∀ (l : List (Nat × Nat)) (st : SweepSt),
      (∀ ij ∈ l, ij.1 + 2 ≤ ij.2 ∧ ij.2 < size) → st.path.length = size →
      (l.foldl (twoOptStep adj size) st).path.length = size := by
  intro l
  induction l with
  | nil => intro st _ h; exact h
  | cons ij rest ih =>
    intro st hb hlen
    rw [List.foldl_cons]
    obtain ⟨h1, h2⟩ := hb ij (List.mem_cons_self _ _)
    exact ih _ (fun ij' h => hb ij' (List.mem_cons_of_mem _ h)) (twoOptStep_length h1 h2 hlen)

theorem foldl_twoOptStep_perm {adj : EdgeMap} {size : Nat} :
    ∀ (l : List (Nat × Nat)) (st : SweepSt),
      (∀ ij ∈ l, ij.1 + 2 ≤ ij.2) →
      ((l.foldl (twoOptStep adj size) st).path).Perm st.path := by
  intro l
  induction l with
  | nil => intro st _; exact List.Perm.refl _
  | cons ij rest ih =>
    intro st hb
    rw [List.foldl_cons]
    exact (ih _ (fun ij' h => hb ij' (List.mem_cons_of_mem _ h))).trans
      (twoOptStep_perm (hb ij (List.mem_cons_self _ _)))

theorem foldl_twoOptStep_cost_le {adj : EdgeMap} {size : Nat} :
    ∀ (l : List (Nat × Nat)) (st : SweepSt),
      (l.foldl (twoOptStep adj size) st).cost ≤ st.cost := by
  intro l
  induction l with
  | nil => intro st; exact le_refl _
  | cons ij rest ih =>
    intro st
    rw [List.foldl_cons]
    exact le_trans (ih _) (twoOptStep_cost_le st ij)

theorem foldl_twoOptStep_cost_inv {adj : EdgeMap} {size : Nat} (hsym : SymmA adj) :
    ∀ (l : List (Nat × Nat)) (st : SweepSt),
      (∀ ij ∈ l, ij.1 + 2 ≤ ij.2 ∧ ij.2 < size) → st.path.length = size →
      st.cost = tourCost adj st.path →
      (l.foldl (twoOptStep adj size) st).cost =
        tourCost adj (l.foldl (twoOptStep adj size) st).path := by
  intro l
  induction l with
  | nil => intro st _ _ h; exact h
  | cons ij rest ih =>
    intro st hb hlen hinv
    rw [List.foldl_cons]
    obtain ⟨h1, h2⟩ := hb ij (List.mem_cons_self _ _)
    exact ih _ (fun ij' h => hb ij' (List.mem_cons_of_mem _ h))
      (twoOptStep_length h1 h2 hlen) (twoOptStep_cost_inv hsym h1 h2 hlen hinv)

theorem sweepPairs_bounds {size : Nat} :
    ∀ ij ∈ sweepPairs size, ij.1 + 2 ≤ ij.2 ∧ ij.2 < size := by
  intro ij hij
  obtain ⟨_, h2, h3⟩ := mem_sweepPairs.mp hij
  exact ⟨h2, h3⟩

theorem twoOptLoop_perm_length {adj : EdgeMap} {size : Nat} :
    ∀ (fuel : Nat) (path : List Int) (cost : ℚ), path.length = size →
      ((twoOptLoop adj size fuel path cost).1).Perm path ∧
        (twoOptLoop adj size fuel path cost).1.length = size := by
  intro fuel
  induction fuel with
  | zero => intro path cost hlen; exact ⟨List.Perm.refl _, hlen⟩
  | succ fuel ih =>
    intro path cost hlen
    simp only [twoOptLoop]
    by_cases himp : (twoOptSweep adj size path cost).improved = true
    · rw [if_pos himp]
      have hswp : ((twoOptSweep adj size path cost).path).Perm path :=
        foldl_twoOptStep_perm _ _ (fun ij h => (sweepPairs_bounds ij h).1)
      have hswl : (twoOptSweep adj size path cost).path.length = size :=
        foldl_twoOptStep_length _ _ sweepPairs_bounds hlen
      obtain ⟨hp, hl⟩ := ih (twoOptSweep adj size path cost).path
        (twoOptSweep adj size path cost).cost hswl
      exact ⟨hp.trans hswp, hl⟩
    · rw [if_neg himp]
      exact ⟨foldl_twoOptStep_perm _ _ (fun ij h => (sweepPairs_bounds ij h).1),
        foldl_twoOptStep_length _ _ sweepPairs_bounds hlen⟩

theorem twoOptLoop_cost_le {adj : EdgeMap} {size : Nat} :
    ∀ (fuel : Nat) (path : List Int) (cost : ℚ),
      (twoOptLoop adj size fuel path cost).2.1 ≤ cost := by
  intro fuel
  induction fuel with
  | zero => intro path cost; exact le_refl _
  | succ fuel ih =>
    intro path cost
    simp only [twoOptLoop]
    by_cases himp : (twoOptSweep adj size path cost).improved = true
    · rw [if_pos himp]
      exact le_trans (ih _ _) (foldl_twoOptStep_cost_le _ _)
    · rw [if_neg himp]
      exact foldl_twoOptStep_cost_le _ _

theorem twoOptLoop_cost_inv {adj : EdgeMap} {size : Nat} (hsym : SymmA adj) :
    ∀ (fuel : Nat) (path : List Int) (cost : ℚ), path.length = size →
      cost = tourCost adj path →
      (twoOptLoop adj size fuel path cost).2.1 =
        tourCost adj (twoOptLoop adj size fuel path cost).1 := by
  intro fuel
  induction fuel with
  | zero => intro path cost _ h; exact h
  | succ fuel ih =>
    intro path cost hlen hinv
    simp only [twoOptLoop]
    have hswl : (twoOptSweep adj size path cost).path.length = size :=
      foldl_twoOptStep_length _ _ sweepPairs_bounds hlen
    have hswc : (twoOptSweep adj size path cost).cost =
        tourCost adj (twoOptSweep adj size path cost).path :=
      foldl_twoOptStep_cost_inv hsym _ _ sweepPairs_bounds hlen hinv
    by_cases himp : (twoOptSweep adj size path cost).improved = true
    · rw [if_pos himp]
      exact ih _ _ hswl hswc
    · rw [if_neg himp]
      exact hswc

/-- A convergent (uncancelled) exit of the 2-opt loop admits no improving
move at any in-bounds, unskipped position pair. -/
theorem twoOptLoop_converged {adj : EdgeMap} {size : Nat} :
    ∀ (fuel : Nat) (path : List Int) (cost : ℚ) (p : List Int) (c : ℚ),
      twoOptLoop adj size fuel path cost = (p, c, true) →
      ∀ i j : Nat, i + 2 ≤ j → j < size → ¬(i = 0 ∧ j = size - 1) →
        improvingMove adj size p i j = false := by
  intro fuel
  induction fuel with
  | zero =>
    intro path cost p c hrun
    simp only [twoOptLoop, Prod.mk.injEq] at hrun
    exact absurd hrun.2.2 (by simp)
  | succ fuel ih =>
    intro path cost p c hrun
    simp only [twoOptLoop] at hrun
    by_cases himp : (twoOptSweep adj size path cost).improved = true
    · rw [if_pos himp] at hrun
      exact ih _ _ _ _ hrun
    · rw [if_neg himp] at hrun
      simp only [Prod.mk.injEq] at hrun
      obtain ⟨hp, hc, _⟩ := hrun
      intro i j hij hj hskip
      have hni : (twoOptSweep adj size path cost).improved = false :=
        Bool.not_eq_true _ ▸ himp
      obtain ⟨hfix, hall⟩ :=
        foldl_twoOptStep_no_improve (sweepPairs size) ⟨path, cost, false⟩ rfl hni
      have hmem : (i, j) ∈ sweepPairs size :=
        mem_sweepPairs.mpr ⟨by omega, hij, hj⟩
      have hstep := hall (i, j) hmem
      have := twoOptStep_no_move_of_eq rfl hstep (by simpa using hskip)
      have hpath : p = path := by
        have hfix' : twoOptSweep adj size path cost = ⟨path, cost, false⟩ := hfix
        rw [hfix'] at hp
        exact hp.symm
      rw [hpath]
      exact this

/-- Specification of a successful `randomizedNearestNeighbor` run. -/
theorem rnn_spec {g : Graph} (hwf : WF g) {start : Int} (hstart : start ∈ g.nodes)
    {numNodes : Nat} (hnum : 1 ≤ numNodes) (s : RandS) {tour : List Int} {c : ℚ}
    (hrun : randomizedNearestNeighbor start numNodes g.edges s = some (tour, c)) :
    tour.length = numNodes ∧ tour.Nodup ∧ (∀ x ∈ tour, x ∈ g.nodes) ∧
      c = tourCost g.edges tour := by
  obtain ⟨hl, hnd, hsub, _, hc⟩ := rnnLoop_spec hwf s (numNodes - 1) 0 start [start] [start] 0
    (by simp) (by simp) (by simp) (List.nodup_singleton _)
    (by intro x hx; rcases List.mem_singleton.mp hx with rfl; exact hstart)
    (by simp [pathCost]) hrun
  exact ⟨by rw [hl]; simp; omega, hnd, hsub, hc⟩

/-! ### Properties of one full construction-and-refinement attempt -/

/-- A successful attempt's tour is a permutation of the graph's node slice. -/
theorem attempt_perm {g : Graph} (hwf : WF g) {start : Int} (hstart : start ∈ g.nodes)
    (s : RandS) (fuel : Nat) {tour : List Int} {c : ℚ}
    (hrun : attempt g start s fuel = some (tour, c)) : tour.Perm g.nodes := by
  unfold attempt attemptOn at hrun
  cases hr : randomizedNearestNeighbor start (NodeCount g) g.edges s with
  | none => rw [hr] at hrun; exact absurd hrun (by simp)
  | some pr =>
    obtain ⟨path, cost⟩ := pr
    rw [hr] at hrun
    simp only [Option.some.injEq, Prod.mk.injEq] at hrun
    obtain ⟨h1, _⟩ := hrun
    have hnum : 1 ≤ NodeCount g := by
      unfold NodeCount
      cases hn : g.nodes with
      | nil => rw [hn] at hstart; simp at hstart
      | cons x xs => simp
    obtain ⟨hlen, hnd, hsub, _⟩ := rnn_spec hwf hstart hnum s hr
    have hperm2 : ((twoOpt g.edges fuel path cost).1).Perm path :=
      (twoOptLoop_perm_length fuel path cost rfl).1
    have hperm3 : path.Perm g.nodes := by
      refine (List.subperm_of_subset hnd fun x hx => hsub x hx).perm_of_length_le ?_
      rw [hlen]
      exact le_refl _
    rw [← h1]
    exact hperm2.trans hperm3

/-- A successful attempt's returned cost is exactly the cycle cost of its
returned tour, for a well-formed symmetric graph. -/
theorem attempt_cost {g : Graph} (hwf : WF g) (hsym : SymmA g.edges) {start : Int}
    (hstart : start ∈ g.nodes) (s : RandS) (fuel : Nat) {tour : List Int} {c : ℚ}
    (hrun : attempt g start s fuel = some (tour, c)) : c = tourCost g.edges tour := by
  unfold attempt attemptOn at hrun
  cases hr : randomizedNearestNeighbor start (NodeCount g) g.edges s with
  | none => rw [hr] at hrun; exact absurd hrun (by simp)
  | some pr =>
    obtain ⟨path, cost⟩ := pr
    rw [hr] at hrun
    simp only [Option.some.injEq, Prod.mk.injEq] at hrun
    obtain ⟨h1, h2⟩ := hrun
    have hnum : 1 ≤ NodeCount g := by
      unfold NodeCount
      cases hn : g.nodes with
      | nil => rw [hn] at hstart; simp at hstart
      | cons x xs => simp
    obtain ⟨_, _, _, hcost⟩ := rnn_spec hwf hstart hnum s hr
    have hinv : (twoOpt g.edges fuel path cost).2.1 =
        tourCost g.edges (twoOpt g.edges fuel path cost).1 :=
      twoOptLoop_cost_inv hsym fuel path cost rfl hcost
    rw [← h1, ← h2]
    exact hinv

/-! ### Properties of the orchestrator -/

theorem foldl_workerStep_none :
    ∀ (l : List (Option (List Int × ℚ))) (st : BestSt),
      (∀ r ∈ l, r = none) → l.foldl workerStep st = st := by
  intro l
  induction l with
  | nil => intro st _; rfl
  | cons r rest ih =>
    intro st h
    rw [List.foldl_cons, h r (List.mem_cons_self _ _)]
    exact ih st fun r' hr' => h r' (List.mem_cons_of_mem _ hr')

theorem foldl_workerStep_best_mem :
    ∀ (l : List (Option (List Int × ℚ))) (st : BestSt) (pr : List Int × ℚ),
      (l.foldl workerStep st).best = some pr → some pr ∈ l ∨ st.best = some pr := by
  intro l
  induction l with
  | nil => intro st pr h; exact Or.inr h
  | cons r rest ih =>
    intro st pr h
    rw [List.foldl_cons] at h
    rcases ih _ pr h with hmem | hbest
    · exact Or.inl (List.mem_cons_of_mem _ hmem)
    · cases r with
      | none => exact Or.inr hbest
      | some pc =>
        obtain ⟨p, c⟩ := pc
        unfold workerStep at hbest
        simp only at hbest
        cases hst : st.best with
        | none =>
          rw [hst] at hbest
          simp only [Option.some.injEq] at hbest
          exact Or.inl (by rw [← hbest]; exact List.mem_cons_self _ _)
        | some bpr =>
          obtain ⟨bp, bc⟩ := bpr
          rw [hst] at hbest
          have hbest2 : (if c < bc then some (p, c) else some (bp, bc)) = some pr := hbest
          by_cases hlt : c < bc
          · rw [if_pos hlt] at hbest2
            simp only [Option.some.injEq] at hbest2
            exact Or.inl (by rw [← hbest2]; exact List.mem_cons_self _ _)
          · rw [if_neg hlt] at hbest2
            exact Or.inr hbest2

/-- Where a non-empty `SolveTSP` answer comes from: either it is some
completed attempt's result (general case), or the 1-node special case. -/
theorem SolveTSP_result {g : Graph} {numCPU maxCPU : Int}
    {atts : List (Option (List Int × ℚ))} {t : List Int} {c : ℚ} {k : Nat}
    (hrun : SolveTSP g numCPU maxCPU atts = (t, c, k)) (hne : t ≠ []) :
    (some (t, c) ∈ atts ∧ 2 ≤ NodeCount g) ∨ (∃ x, g.nodes = [x] ∧ t = [x] ∧ c = 0) := by
  unfold SolveTSP at hrun
  by_cases h0 : NodeCount g = 0
  · rw [if_pos h0] at hrun
    simp only [Prod.mk.injEq] at hrun
    exact absurd hrun.1.symm hne
  · rw [if_neg h0] at hrun
    by_cases h1 : NodeCount g = 1
    · rw [if_pos h1] at hrun
      cases hn : g.nodes with
      | nil => rw [NodeCount, hn] at h1; simp at h1
      | cons x xs =>
        cases xs with
        | nil =>
          refine Or.inr ⟨x, rfl, ?_, ?_⟩
          · rw [hn] at hrun
            simp only [Prod.mk.injEq] at hrun
            exact hrun.1.symm
          · simp only [Prod.mk.injEq] at hrun
            exact hrun.2.1.symm
        | cons y ys => rw [NodeCount, hn] at h1; simp at h1
    · rw [if_neg h1] at hrun
      simp only at hrun
      set completed := if min numCPU maxCPU ≤ 0 then [] else atts with hcompleted
      cases hb : (completed.foldl workerStep ⟨none, 0⟩).best with
      | none =>
        rw [hb] at hrun
        simp only [Prod.mk.injEq] at hrun
        exact absurd hrun.1.symm hne
      | some pr =>
        obtain ⟨bp, bc⟩ := pr
        rw [hb] at hrun
        simp only [Prod.mk.injEq] at hrun
        obtain ⟨hp, hc, _⟩ := hrun
        rcases foldl_workerStep_best_mem completed ⟨none, 0⟩ (bp, bc) hb with hmem | hinit
        · left
          constructor
          · rw [← hp, ← hc]
            rw [hcompleted] at hmem
            by_cases hw : min numCPU maxCPU ≤ 0
            · rw [if_pos hw] at hmem; simp at hmem
            · rw [if_neg hw] at hmem; exact hmem
          · omega
        · simp at hinit

/-- Extensional equality of two edge maps follows from agreement on a finite
key superset: keys outside it are absent from both maps. -/
theorem edgeWeightA_ext_of_checks (a b : EdgeMap) (K : List Int)
    (ha : ∀ p ∈ a, p.1 ∈ K ∧ ∀ q ∈ p.2, q.1 ∈ K)
    (hb : ∀ p ∈ b, p.1 ∈ K ∧ ∀ q ∈ p.2, q.1 ∈ K)
    (hK : ∀ u ∈ K, ∀ v ∈ K, edgeWeightA a u v = edgeWeightA b u v) :
    ∀ u v, edgeWeightA a u v = edgeWeightA b u v := by
  have hnone_u : ∀ (m : EdgeMap), (∀ p ∈ m, p.1 ∈ K ∧ ∀ q ∈ p.2, q.1 ∈ K) →
      ∀ u v, u ∉ K → edgeWeightA m u v = none := by
    intro m hm u v hu
    unfold edgeWeightA adjOf
    cases hg : alistGet u m with
    | none => rfl
    | some l => exact absurd (hm (u, l) (alistGet_mem hg)).1 hu
  have hnone_v : ∀ (m : EdgeMap), (∀ p ∈ m, p.1 ∈ K ∧ ∀ q ∈ p.2, q.1 ∈ K) →
      ∀ u v, v ∉ K → edgeWeightA m u v = none := by
    intro m hm u v hv
    unfold edgeWeightA adjOf
    cases hg : alistGet u m with
    | none => rfl
    | some l =>
      simp only [Option.getD_some]
      refine alistGet_eq_none_iff.mpr fun hvk => ?_
      obtain ⟨q, hq, hq1⟩ := List.mem_map.mp hvk
      exact hv (hq1 ▸ (hm (u, l) (alistGet_mem hg)).2 q hq)
  intro u v
  by_cases hu : u ∈ K
  · by_cases hv : v ∈ K
    · exact hK u hu v hv
    · rw [hnone_v a ha u v hv, hnone_v b hb u v hv]
  · rw [hnone_u a ha u v hu, hnone_u b hb u v hu]

/-! ### The claims -/

/-- C1.  For every graph and every call to solve (`SolveTSP`) that returns a
non-empty tour, the returned tour contains every node of the graph exactly
once: it is a permutation of the graph's node list, with no duplicate and no
omission.  The hypothesis records where the completed attempts come from:
each is the output of one construction-and-refinement attempt run on some
evaluation-order view of the same graph (well-formed, same node slice, start
drawn from the nodes). -/
theorem claim_C1_solve_tour_permutation (g : Graph) (numCPU maxCPU : Int)
    (atts : List (Option (List Int × ℚ))) (t : List Int) (c : ℚ) (k : Nat)
    (hprov : ∀ r ∈ atts, ∀ (p : List Int) (q : ℚ), r = some (p, q) →
      ∃ (g' : Graph) (startNode : Int) (s : RandS) (fuel : Nat),
        WF g' ∧ g'.nodes = g.nodes ∧ startNode ∈ g'.nodes ∧
          attempt g' startNode s fuel = some (p, q))
    (hrun : SolveTSP g numCPU maxCPU atts = (t, c, k)) (hne : t ≠ []) :
    t.Perm g.nodes := by
  rcases SolveTSP_result hrun hne with ⟨hmem, _⟩ | ⟨x, hx, ht, _⟩
  · obtain ⟨g', startNode, s, fuel, hwf, hnodes, hstart, hatt⟩ := hprov _ hmem t c rfl
    rw [← hnodes]
    exact attempt_perm hwf hstart s fuel hatt
  · rw [ht, hx]

/-- C1 witness: a solve on the concrete complete 4-node graph whose single
completed attempt is the pipeline's own output yields a tour that is a
permutation of the node slice. -/
theorem claim_C1_witness : ([1, 2, 3, 4] : List Int).Perm gK4.nodes := by
  refine claim_C1_solve_tour_permutation gK4 4 4 [some ([1, 2, 3, 4], 14)]
    [1, 2, 3, 4] 14 1 ?_ (by decide) (by simp)
  intro r hr p q hpq
  rcases List.mem_singleton.mp hr with rfl
  have h := Option.some.inj hpq
  injection h with h1 h2
  subst h1; subst h2
  exact ⟨gK4, 1, sZero, 1, by decide, rfl, by decide, by with_unfolding_all decide⟩

/-- C2.  For every well-formed graph with symmetric stored weights, a
successful construction-and-refinement attempt returns a cost equal to the
sum of the stored edge weights along consecutive tour positions plus the
closing edge from the last tour node back to the first (`tourCost`); in
particular the incremental `delta` updates of `twoOpt` keep the running cost
exactly equal to the cost of the current tour (rational arithmetic is exact,
so the floating tolerance is equality here). -/
theorem claim_C2_cost_exact (g : Graph) (startNode : Int) (s : RandS) (fuel : Nat)
    (tour : List Int) (c : ℚ) (hwf : WF g) (hsym : SymmA g.edges)
    (hstart : startNode ∈ g.nodes)
    (hrun : attempt g startNode s fuel = some (tour, c)) :
    c = tourCost g.edges tour :=
  attempt_cost hwf hsym hstart s fuel hrun

/-- C2 witness: the pipeline on the complete 4-node graph returns cost 14,
which is exactly the cycle cost of the returned tour. -/
theorem claim_C2_witness : (14 : ℚ) = tourCost gK4.edges [1, 2, 3, 4] :=
  claim_C2_cost_exact gK4 1 sZero 1 [1, 2, 3, 4] 14 (by decide)
    (fun u v => symm_buildGraph esK4 u v) (by decide) (by with_unfolding_all decide)

/-- C3.  The cost returned by `twoOpt` is at most the input cost, and the
running cost is monotonically non-increasing across the whole run: every
sweep step leaves the cost unchanged or, when it applies a move (changes the
state), strictly decreases it by more than `1e-9`. -/
theorem claim_C3_twoOpt_monotone :
    (∀ (adj : EdgeMap) (size : Nat) (st : SweepSt) (ij : Nat × Nat),
      (twoOptStep adj size st ij).cost ≤ st.cost ∧
        (twoOptStep adj size st ij ≠ st →
          (twoOptStep adj size st ij).cost < st.cost - eps)) ∧
    (∀ (adj : EdgeMap) (fuel : Nat) (path : List Int) (cost : ℚ),
      (twoOpt adj fuel path cost).2.1 ≤ cost) :=
  ⟨fun _ _ st ij => ⟨twoOptStep_cost_le st ij, fun h => twoOptStep_cost_lt_of_ne h⟩,
   fun _ fuel path cost => twoOptLoop_cost_le fuel path cost⟩

/-- C3 witness: on the square graph, a full `twoOpt` run never exceeds the
input cost 6, and the applied move at pair `(0, 2)` drops the cost by more
than the tolerance. -/
theorem claim_C3_witness :
    (twoOpt gSq.edges 5 [1, 3, 2, 4] 6).2.1 ≤ 6 ∧
      (twoOptStep gSq.edges 4 ⟨[1, 3, 2, 4], 6, false⟩ (0, 2)).cost < 6 - eps :=
  ⟨claim_C3_twoOpt_monotone.2 gSq.edges 5 [1, 3, 2, 4] 6,
   (claim_C3_twoOpt_monotone.1 gSq.edges 4 ⟨[1, 3, 2, 4], 6, false⟩ (0, 2)).2
     (by with_unfolding_all decide)⟩

/-- C4.  If `twoOpt` terminates without the cancellation signal firing (the
convergence flag is `true`), the returned tour admits no improving 2-opt
move: for every position pair `(i, j)` with `j ≥ i + 2`, excluding the pair
`(0, lastIndex)`, either one of the two replacement edges is absent or the
`delta` is not below `-1e-9` (`improvingMove` is `false`). -/
theorem claim_C4_local_optimum (adj : EdgeMap) (fuel : Nat) (path : List Int)
    (cost : ℚ) (p : List Int) (c : ℚ)
    (hrun : twoOpt adj fuel path cost = (p, c, true)) :
    ∀ i j : Nat, i + 2 ≤ j → j < p.length → ¬(i = 0 ∧ j = p.length - 1) →
      improvingMove adj p.length p i j = false := by
  intro i j hij hj hskip
  have hloop : twoOptLoop adj path.length fuel path cost = (p, c, true) := hrun
  have hlen : p.length = path.length := by
    have h := (@twoOptLoop_perm_length adj path.length fuel path cost rfl).2
    rw [hloop] at h
    exact h
  rw [hlen] at hj hskip ⊢
  exact twoOptLoop_converged fuel path cost p c hloop i j hij hj hskip

/-- C4 witness: the converged run on the complete 4-node graph leaves the
tour `[1, 2, 3, 4]`, and the pair `(0, 2)` offers no improving move. -/
theorem claim_C4_witness : improvingMove gK4.edges 4 [1, 2, 3, 4] 0 2 = false :=
  claim_C4_local_optimum gK4.edges 5 [1, 2, 3, 4] 14 [1, 2, 3, 4] 14
    (by with_unfolding_all decide) 0 2 (by decide) (by decide) (by decide)

/-- C5 counterexample.  The claim states that two runs of the randomized
construction and refinement pipeline with identical seeds on the same graph
and start node produce identical tours and costs.  This is false for the Go
code: `randomizedNearestNeighbor` ranges over a Go map, whose iteration
order the runtime randomizes between runs, and the index drawn by
`rng.Intn(len(topK))` selects different neighbors under different
enumeration orders.  Concretely, `gK4` and `gK4rev` are the same abstract
graph (same node slice, same stored weight function — `sameEntries`), yet
the pipeline from start node 1 with the all-zero random stream returns the
tour `[1, 2, 3, 4]` on one enumeration order and `[1, 4, 3, 2]` on the
other. -/
theorem claim_C5_counterexample :
    sameEntries gK4 gK4rev ∧
      attempt gK4 1 sZero 1 ≠ attempt gK4rev 1 sZero 1 := by
  refine ⟨⟨by decide, ?_⟩, by with_unfolding_all decide⟩
  exact edgeWeightA_ext_of_checks gK4.edges gK4rev.edges [1, 2, 3, 4]
    (by decide) (by decide) (by decide)

/-- C5 amended.  The computation is a deterministic function of the graph
*representation* (adjacency contents together with their enumeration order
and the node count), the start node, the seed, and the cancellation fuel:
two runs agreeing on those data return identical tours and costs.  Identical
seeds alone do not suffice (see the counterexample), because Go randomizes
map iteration order between runs. -/
theorem claim_C5_deterministic_replay_amended (g₁ g₂ : Graph) (startNode : Int)
    (s : RandS) (fuel : Nat) (he : g₁.edges = g₂.edges)
    (hn : NodeCount g₁ = NodeCount g₂) :
    attempt g₁ startNode s fuel = attempt g₂ startNode s fuel := by
  unfold attempt
  rw [he, hn]

/-- C5 witness: the amended determinism applied to `gK4` and a graph value
with the same edge representation and node count but a different node slice. -/
theorem claim_C5_witness :
    attempt gK4 1 sZero 1 = attempt ⟨gK4.edges, [7, 7, 7, 7]⟩ 1 sZero 1 :=
  claim_C5_deterministic_replay_amended gK4 ⟨gK4.edges, [7, 7, 7, 7]⟩ 1 sZero 1
    rfl (by decide)

/-- C6 counterexample.  The claim states that no sequence of `AddEdge` calls
creates a self-loop, in particular not when `from = to`.  This is false:
`AddEdge(5, 5, 1)` stores `edges[5][5] = 1` (with `f = t = 5` both
assignments hit the same entry), so the resulting graph contains a
self-loop. -/
theorem claim_C6_counterexample :
    edgeWeight (buildGraph [((5 : Int), (5 : Int), (1 : ℚ))]) 5 5 = some 1 := by
  decide

/-- C6 amended.  For every sequence of `AddEdge(u, v, w)` calls in which
every call has `from ≠ to`, the resulting graph contains no self-loop; a
call with `from = to` does store one (see the counterexample). -/
theorem claim_C6_no_self_loop_amended (es : List (Int × Int × ℚ))
    (h : ∀ e ∈ es, e.1 ≠ e.2.1) : ∀ u, edgeWeight (buildGraph es) u u = none :=
  noSelfLoop_buildGraph h

/-- C6 witness: a graph built from one proper edge stores no self-loop at
node 1. -/
theorem claim_C6_witness :
    edgeWeight (buildGraph [((1 : Int), (2 : Int), (1 : ℚ))]) 1 1 = none :=
  claim_C6_no_self_loop_amended _ (by decide) 1

/-- C7.  The stored weight function is symmetric — the edge `(u, v)` is
present iff `(v, u)` is, with equal weights (equality of the optional
lookups) — for every graph built by a sequence of `AddEdge` calls, and this
symmetry is preserved by every individual `AddEdge` call. -/
theorem claim_C7_symmetric_weights :
    (∀ (g : Graph) (fr tn : Int) (w : ℚ),
      (∀ u v, edgeWeight g u v = edgeWeight g v u) →
      ∀ u v, edgeWeight (AddEdge g fr tn w) u v = edgeWeight (AddEdge g fr tn w) v u) ∧
    (∀ (es : List (Int × Int × ℚ)) (u v : Int),
      edgeWeight (buildGraph es) u v = edgeWeight (buildGraph es) v u) :=
  ⟨fun _ fr tn w h => symm_AddEdge h fr tn w, fun es => symm_buildGraph es⟩

/-- C7 witness: symmetry after one further `AddEdge` call on a built graph,
read off at the newly inserted pair. -/
theorem claim_C7_witness :
    edgeWeight (AddEdge (buildGraph [((1 : Int), (2 : Int), (5 : ℚ))]) 2 3 7) 2 3 =
      edgeWeight (AddEdge (buildGraph [((1 : Int), (2 : Int), (5 : ℚ))]) 2 3 7) 3 2 :=
  claim_C7_symmetric_weights.1 (buildGraph [((1 : Int), (2 : Int), (5 : ℚ))]) 2 3 7
    (claim_C7_symmetric_weights.2 [((1 : Int), (2 : Int), (5 : ℚ))]) 2 3

/-- C8.  `SolveTSP` on a graph with zero nodes returns the empty tour, cost
0 and 0 attempts — for every attempt list, i.e. before any worker runs; on
a graph with exactly one node it returns that single-node tour, cost 0 and
attempt count 1, again independently of the attempt list, so without running
construction or local search. -/
theorem claim_C8_degenerate_inputs (g : Graph) (numCPU maxCPU : Int)
    (atts : List (Option (List Int × ℚ))) :
    (g.nodes = [] → SolveTSP g numCPU maxCPU atts = ([], 0, 0)) ∧
    (∀ x : Int, g.nodes = [x] → SolveTSP g numCPU maxCPU atts = ([x], 0, 1)) := by
  constructor
  · intro h
    unfold SolveTSP NodeCount
    rw [h]
    simp
  · intro x h
    unfold SolveTSP NodeCount
    rw [h]
    simp

/-- C8 witness: the empty graph and the one-node graph (reachable via a
self-loop `AddEdge`), each with a non-trivial attempt list that is ignored. -/
theorem claim_C8_witness :
    SolveTSP (buildGraph []) 4 4 [] = ([], 0, 0) ∧
      SolveTSP (buildGraph [((5 : Int), (5 : Int), (1 : ℚ))]) 4 4
        [some ([9], 3)] = ([5], 0, 1) :=
  ⟨(claim_C8_degenerate_inputs _ 4 4 []).1 (by decide),
   (claim_C8_degenerate_inputs _ 4 4 _).2 5 (by decide)⟩

/-- C9 counterexample.  The claim states that whenever no worker ever
completes a valid tour, `SolveTSP` returns an empty tour with cost 0 and the
accumulated attempt count.  On a one-node graph (reachable only through a
self-loop `AddEdge`) no worker is ever spawned — so no worker completes a
tour, vacuously — yet `SolveTSP` returns the non-empty tour `[5]` with
attempt count 1, contradicting the claim as stated. -/
theorem claim_C9_counterexample :
    SolveTSP (buildGraph [((5 : Int), (5 : Int), (1 : ℚ))]) 4 4 [] = ([5], 0, 1) ∧
      ([(5 : Int)] : List Int) ≠ [] := by
  refine ⟨by decide, by decide⟩

/-- C9 amended.  For every graph whose node count is not exactly 1 (the
1-node short-circuit is the counterexample), if every attempt fails
construction then `SolveTSP` returns the empty tour, cost 0, and attempt
count 0 — failed constructions are never surfaced and never counted; and in
general a failed construction is invisible to the caller: dropping a `none`
attempt from the list leaves the result unchanged. -/
theorem claim_C9_no_solution_amended (g : Graph) (numCPU maxCPU : Int)
    (atts : List (Option (List Int × ℚ))) :
    (NodeCount g ≠ 1 → (∀ r ∈ atts, r = none) →
      SolveTSP g numCPU maxCPU atts = ([], 0, 0)) ∧
    SolveTSP g numCPU maxCPU (none :: atts) = SolveTSP g numCPU maxCPU atts := by
  constructor
  · intro hn1 hall
    unfold SolveTSP
    by_cases h0 : NodeCount g = 0
    · simp [h0]
    · rw [if_neg h0, if_neg hn1]
      by_cases hw : min numCPU maxCPU ≤ 0
      · simp [hw]
      · simp only [if_neg hw]
        rw [foldl_workerStep_none atts ⟨none, 0⟩ hall]
  · unfold SolveTSP
    by_cases h0 : NodeCount g = 0
    · simp [h0]
    · by_cases h1 : NodeCount g = 1
      · simp [h0, h1]
      · simp only [if_neg h0, if_neg h1]
        by_cases hw : min numCPU maxCPU ≤ 0
        · simp [hw]
        · simp only [if_neg hw]
          rw [List.foldl_cons]
          rfl

/-- C9 witness: on a 2-node graph with two failed constructions the result
is the empty "no solution" answer, and prepending another failure changes
nothing. -/
theorem claim_C9_witness :
    SolveTSP (buildGraph [((1 : Int), (2 : Int), (5 : ℚ))]) 4 4 [none, none] = ([], 0, 0) ∧
      SolveTSP (buildGraph [((1 : Int), (2 : Int), (5 : ℚ))]) 4 4 (none :: [none, none]) =
        SolveTSP (buildGraph [((1 : Int), (2 : Int), (5 : ℚ))]) 4 4 [none, none] :=
  ⟨(claim_C9_no_solution_amended _ 4 4 _).1 (by decide) (by decide),
   (claim_C9_no_solution_amended _ 4 4 _).2⟩

/-- C10.  For every graph with at least two nodes, if the requested maximum
parallelism is zero or negative then the worker-spawn loop runs zero times —
no attempt can complete — and `SolveTSP` returns the empty tour, cost 0 and
0 attempts regardless of the attempt list (and hence of the time budget). -/
theorem claim_C10_no_workers (g : Graph) (numCPU maxCPU : Int)
    (atts : List (Option (List Int × ℚ))) (h2 : 2 ≤ NodeCount g)
    (hmc : maxCPU ≤ 0) : SolveTSP g numCPU maxCPU atts = ([], 0, 0) := by
  unfold SolveTSP
  rw [if_neg (by omega), if_neg (by omega)]
  have hw : min numCPU maxCPU ≤ 0 := le_trans (min_le_right _ _) hmc
  simp [hw]

/-- C10 witness: a 2-node graph with `maxCPU = 0` ignores a present
attempt. -/
theorem claim_C10_witness :
    SolveTSP (buildGraph [((1 : Int), (2 : Int), (5 : ℚ))]) 8 0
      [some ([1, 2], 10)] = ([], 0, 0) :=
  claim_C10_no_workers _ 8 0 _ (by decide) (by decide)

end TSPGo
